import Mathlib

/-!
Verification of the Column Resolution + Aggregation pipeline of the CYBER
fraud-analysis repository (src/column_detector.py, src/data_processor.py,
src/aggregation_engine.py, src/models.py).

Python strings are modelled as `List Char`; pandas cells as `Option Val`
(`none` is NaN/None); Python floats as `ℚ`; Python ints as `ℤ`/`ℕ`.
-/

namespace Cyber

/-- Python strings are modelled as lists of characters. -/
abbrev Str := List Char

/-- Whitespace class used by Python `str.strip`, `str.split` and the `re`
module's `\s` (ASCII part; the pipeline only ever re-emits ASCII spaces). -/
def isPySpace (c : Char) : Bool :=
  c = ' ' || c = '\t' || c = '\n' || c = '\r' || c = Char.ofNat 11 || c = Char.ofNat 12

/-- Python `str.strip()`: drop leading and trailing whitespace. -/
def pyStrip (s : Str) : Str :=
  ((s.dropWhile isPySpace).reverse.dropWhile isPySpace).reverse

/-- Python `str.lower()` restricted to the ASCII range (all lexicon variants
and all characters surviving the detector's normalization are ASCII). -/
def pyLower (c : Char) : Char :=
  if 'A' ≤ c ∧ c ≤ 'Z' then Char.ofNat (c.toNat + 32) else c

/-- Worker for `collapseWS`: `prev` records whether the previous emitted
character came from a whitespace run. -/
def collapseGo (prev : Bool) : Str → Str
  | [] => []
  | c :: rest =>
    if isPySpace c then
      if prev then collapseGo true rest else ' ' :: collapseGo true rest
    else c :: collapseGo false rest

/-- `re.sub(r'\s+', ' ', s)`: collapse every whitespace run to one space. -/
def collapseWS (s : Str) : Str := collapseGo false s

/-- First-occurrence deduplication worker (`seen` accumulates values). -/
def dedupGo {α : Type} [DecidableEq α] (seen : List α) : List α → List α
  | [] => []
  | a :: as => if a ∈ seen then dedupGo seen as else a :: dedupGo (a :: seen) as

/-- First-occurrence-order deduplication, as `pandas.Series.unique`. -/
def dedupF {α : Type} [DecidableEq α] (l : List α) : List α := dedupGo [] l

/-- Worker for `removeAll`, structurally recursive on a fuel bound (one
unit of fuel per consumed character; `removeAll` supplies `s.length`). -/
def removeAllGo (pat : Str) : ℕ → Str → Str
  | _, [] => []
  | 0, s => s
  | fuel + 1, c :: rest =>
    if pat.isPrefixOf (c :: rest) ∧ pat ≠ [] then
      removeAllGo pat fuel ((c :: rest).drop pat.length)
    else c :: removeAllGo pat fuel rest

/-- Python `str.replace(pat, '')`: delete every (left-to-right,
non-overlapping) occurrence of `pat`. -/
def removeAll (pat : Str) (s : Str) : Str :=
  if pat = [] then s else removeAllGo pat s.length s

/-- The ten digit characters (decimal rendering). -/
def dChar (n : ℕ) : Char :=
  match n with
  | 0 => '0' | 1 => '1' | 2 => '2' | 3 => '3' | 4 => '4'
  | 5 => '5' | 6 => '6' | 7 => '7' | 8 => '8' | _ => '9'

/-- Worker for `toDigits`, structurally recursive on a fuel bound
(`toDigits` supplies `n`, which dominates the digit count). -/
def toDigitsGo : ℕ → ℕ → Str
  | 0, n => [dChar (n % 10)]
  | fuel + 1, n =>
    if n < 10 then [dChar n] else toDigitsGo fuel (n / 10) ++ [dChar (n % 10)]

/-- Decimal digit string of a natural number, most significant digit first
(Python `str(n)` for a nonnegative int). -/
def toDigits (n : ℕ) : Str := toDigitsGo n n

/-- Numeric value of a digit character. -/
def dVal (c : Char) : ℕ := c.toNat - 48

/-- Value of a digit string read most-significant-first. -/
def digitsValCore (l : Str) : ℕ := l.foldl (fun acc c => 10 * acc + dVal c) 0

/-! ## Number parsing (models Python `float(str)` and `pandas.to_numeric`)

Both parsers are modelled on the finite plain-decimal fragment
`[sign] digits [ '.' digits ]`; exponent notation and the textual
`nan`/`inf` literals are outside the modelled fragment (mapped to `none`),
and every theorem whose truth could depend on them carries a hypothesis
excluding them. -/

/-- Unsigned decimal parse: `digits [ '.' digits ]`, at least one digit. -/
def coreUnsigned (s : Str) : Option ℚ :=
  let ip := s.takeWhile Char.isDigit
  let rest := s.dropWhile Char.isDigit
  match rest with
  | [] => if ip = [] then none else some (digitsValCore ip)
  | c :: fp =>
    if c = '.' then
      if ip = [] ∧ fp = [] then none
      else if fp.all Char.isDigit then
        some ((digitsValCore ip : ℚ) + (digitsValCore fp : ℚ) / 10 ^ fp.length)
      else none
    else none

/-- Signed decimal parse: optional `+`/`-` then `coreUnsigned`. -/
def signedCore (s : Str) : Option ℚ :=
  match s with
  | [] => coreUnsigned []
  | c :: t =>
    if c = '-' then (coreUnsigned t).map (fun q => -q)
    else if c = '+' then coreUnsigned t
    else coreUnsigned (c :: t)

/-- Worker for `underscoresOK`: `prev` is the previous character. -/
def uAux (prev : Option Char) : Str → Bool
  | [] => true
  | c :: r =>
    if c = '_' then
      match prev, r with
      | some p, d :: _ => p.isDigit && d.isDigit && uAux (some c) r
      | _, _ => false
    else uAux (some c) r

/-- PEP 515 check used by Python `float`: every underscore must stand
directly between two digits. -/
def underscoresOK (s : Str) : Bool := uAux none s

/-- Python `float(s)` on the modelled fragment: underscores allowed between
digits (PEP 515), then a plain signed decimal. -/
def pyFloat (s : Str) : Option ℚ :=
  if underscoresOK s then signedCore (s.filter (fun c => c ≠ '_')) else none

/-- `pandas.to_numeric(s, errors='coerce')` element parse on the modelled
fragment: plain signed decimal, underscores rejected. -/
def pdNum (s : Str) : Option ℚ :=
  if '_' ∈ s then none else signedCore s

/-! ## DataProcessor (src/data_processor.py) -/

/-- `DataProcessor.CURRENCY_SYMBOLS`, in source order. -/
def CURRENCY_SYMBOLS : List Str :=
  [['₹'], ['$'], ['£'], ['€'], ['R', 's', '.'], ['R', 's'],
   ['I', 'N', 'R'], ['U', 'S', 'D']]

/-- Remove every currency symbol, in the source's loop order. -/
def removeSymbols (s : Str) : Str :=
  CURRENCY_SYMBOLS.foldl (fun acc p => removeAll p acc) s

/-- The cleaning steps shared by `parse_amount` and
`parse_amounts_vectorized`: currency symbols, commas, strip, parentheses. -/
def cleanAmountStr (s : Str) : Str :=
  let c1 := removeSymbols s
  let c2 := pyStrip (removeAll [','] c1)
  if c2.head? = some '(' ∧ c2.getLast? = some ')' then
    '-' :: (c2.drop 1).dropLast
  else c2

/-- Clean a stripped amount string and read it with the parser `P`,
defaulting failures to 0.0 (`except/return 0.0` resp. `coerce + fillna`). -/
def amountFromParser (P : Str → Option ℚ) (s : Str) : ℚ :=
  match P (cleanAmountStr s) with
  | some q => q
  | none => 0

/-- `DataProcessor.parse_amount` (scalar; `None` input is `none`). -/
def parse_amount (x : Option Str) : ℚ :=
  match x with
  | none => 0
  | some s0 =>
    if s0 = ['n', 'a', 'n'] ∨ s0 = ['N', 'o', 'n', 'e'] ∨ s0 = [] then 0
    else if pyStrip s0 = [] then 0
    else amountFromParser pyFloat (pyStrip s0)

/-- One element of `DataProcessor.parse_amounts_vectorized`: `astype(str)`
(null becomes the literal string `nan`), strip, the shared cleaning steps,
`to_numeric(errors='coerce')`, `fillna(0.0)`. -/
def parseAmountsVectorizedElem (x : Option Str) : ℚ :=
  amountFromParser pdNum
    (pyStrip (match x with | none => ['n', 'a', 'n'] | some s => s))

/-! ## ColumnDetector (src/column_detector.py) -/

/-- The ten canonical column roles of `models.ColumnMapping`. -/
inductive CanonicalField : Type
  | serial_number
  | acknowledgement_number
  | bank_account_number
  | ifsc_code
  | address
  | amount
  | disputed_amount
  | bank_name
  | district
  | state
deriving DecidableEq

/-- `ColumnDetector.COLUMN_VARIANTS`, in source (dict insertion) order. -/
def COLUMN_VARIANTS : List (CanonicalField × List Str) :=
  [(CanonicalField.serial_number,
   [['s', 'r', ' ', 'n', 'o'],
    ['s', 'r', '.', 'n', 'o'],
    ['s', 'e', 'r', 'i', 'a', 'l', ' ', 'n', 'o'],
    ['s', '.', 'n', 'o'],
    ['s', 'n', 'o'],
    ['s', 'e', 'r', 'i', 'a', 'l', ' ', 'n', 'u', 'm', 'b', 'e', 'r'],
    ['#']]),
   (CanonicalField.acknowledgement_number,
   [['a', 'c', 'k', 'n', 'o', 'w', 'l', 'e', 'd', 'g', 'e', 'm', 'e', 'n', 't', ' ', 'n', 'o'],
    ['a', 'c', 'k', ' ', 'n', 'o'],
    ['a', 'c', 'k', 'n', 'o'],
    ['a', 'c', 'k'],
    ['a', 'c', 'k', 'n', 'o', 'w', 'l', 'e', 'd', 'g', 'm', 'e', 'n', 't', ' ', 'n', 'o'],
    ['a', 'c', 'k', 'n', 'o', 'w', 'l', 'e', 'd', 'g', 'e', 'm', 'e', 'n', 't', ' ', 'n', 'u', 'm', 'b', 'e', 'r'],
    ['a', 'c', 'k', 'n', 'o', 'w', 'l', 'e', 'd', 'g', 'm', 'e', 'n', 't', ' ', 'n', 'u', 'm', 'b', 'e', 'r'],
    ['r', 'e', 'f', ' ', 'n', 'o'],
    ['r', 'e', 'f', 'e', 'r', 'e', 'n', 'c', 'e', ' ', 'n', 'o']]),
   (CanonicalField.bank_account_number,
   [['b', 'a', 'n', 'k', ' ', 'a', 'c', 'c', 'o', 'u', 'n', 't', ' ', 'n', 'o'],
    ['b', 'a', 'n', 'k', ' ', 'a', 'c', ' ', 'n', 'o'],
    ['b', 'a', 'n', 'k', ' ', 'a', '/', 'c', ' ', 'n', 'o'],
    ['a', 'c', ' ', 'n', 'o'],
    ['a', '/', 'c', ' ', 'n', 'o'],
    ['a', 'c', 'c', 'o', 'u', 'n', 't', ' ', 'n', 'o'],
    ['a', 'c', 'c', 'o', 'u', 'n', 't', ' ', 'n', 'u', 'm', 'b', 'e', 'r'],
    ['b', 'a', 'n', 'k', ' ', 'a', 'c', 'c', 'o', 'u', 'n', 't', ' ', 'n', 'u', 'm', 'b', 'e', 'r'],
    ['b', 'e', 'n', 'e', 'f', 'i', 'c', 'i', 'a', 'r', 'y', ' ', 'a', 'c', 'c', 'o', 'u', 'n', 't'],
    ['b', 'e', 'n', 'e', 'f', 'i', 'c', 'i', 'a', 'r', 'y', ' ', 'a', 'c']]),
   (CanonicalField.ifsc_code,
   [['i', 'f', 's', 'c', ' ', 'c', 'o', 'd', 'e'],
    ['i', 'f', 's', 'c'],
    ['b', 'a', 'n', 'k', ' ', 'c', 'o', 'd', 'e']]),
   (CanonicalField.address,
   [['a', 'd', 'd', 'r', 'e', 's', 's'],
    ['b', 'e', 'n', 'e', 'f', 'i', 'c', 'i', 'a', 'r', 'y', ' ', 'a', 'd', 'd', 'r', 'e', 's', 's'],
    ['a', 'c', 'c', 'o', 'u', 'n', 't', ' ', 'h', 'o', 'l', 'd', 'e', 'r', ' ', 'a', 'd', 'd', 'r', 'e', 's', 's'],
    ['l', 'o', 'c', 'a', 't', 'i', 'o', 'n']]),
   (CanonicalField.amount,
   [['a', 'm', 'o', 'u', 'n', 't'],
    ['t', 'r', 'a', 'n', 's', 'a', 'c', 't', 'i', 'o', 'n', ' ', 'a', 'm', 'o', 'u', 'n', 't'],
    ['t', 'x', 'n', ' ', 'a', 'm', 'o', 'u', 'n', 't'],
    ['t', 'r', 'a', 'n', 's', 'f', 'e', 'r', ' ', 'a', 'm', 'o', 'u', 'n', 't'],
    ['f', 'r', 'a', 'u', 'd', ' ', 'a', 'm', 'o', 'u', 'n', 't']]),
   (CanonicalField.disputed_amount,
   [['d', 'i', 's', 'p', 'u', 't', 'e', 'd', ' ', 'a', 'm', 'o', 'u', 'n', 't'],
    ['d', 'i', 's', 'p', 'u', 't', 'e', 'd'],
    ['c', 'l', 'a', 'i', 'm', ' ', 'a', 'm', 'o', 'u', 'n', 't'],
    ['d', 'i', 's', 'p', 'u', 't', 'e', 'd', ' ', 'a', 'm', 't'],
    ['c', 'h', 'a', 'r', 'g', 'e', 'b', 'a', 'c', 'k', ' ', 'a', 'm', 'o', 'u', 'n', 't']]),
   (CanonicalField.bank_name,
   [['b', 'a', 'n', 'k', ' ', 'n', 'a', 'm', 'e'],
    ['b', 'a', 'n', 'k'],
    ['b', 'e', 'n', 'e', 'f', 'i', 'c', 'i', 'a', 'r', 'y', ' ', 'b', 'a', 'n', 'k'],
    ['r', 'e', 'c', 'e', 'i', 'v', 'i', 'n', 'g', ' ', 'b', 'a', 'n', 'k']]),
   (CanonicalField.district,
   [['d', 'i', 's', 't', 'r', 'i', 'c', 't'],
    ['d', 'i', 's', 't'],
    ['d', 'i', 's', 't', 'r', 'i', 'c', 't', ' ', 'n', 'a', 'm', 'e']]),
   (CanonicalField.state,
   [['s', 't', 'a', 't', 'e'],
    ['s', 't', 'a', 't', 'e', ' ', 'n', 'a', 'm', 'e'],
    ['p', 'r', 'o', 'v', 'i', 'n', 'c', 'e']])]

/-- `ColumnDetector.SIMILARITY_THRESHOLD` (0.80). -/
def SIMILARITY_THRESHOLD : ℚ := 80 / 100

/-- `ColumnDetector.normalize_header`: strip, lowercase, replace `_ - . /`
by spaces, drop everything but lowercase letters / digits / whitespace,
collapse whitespace runs, strip again. -/
def normalize_header (s : Str) : Str :=
  let s1 := pyStrip s
  let s2 := s1.map pyLower
  let s3 := s2.map (fun c => if c = '_' ∨ c = '-' ∨ c = '.' ∨ c = '/' then ' ' else c)
  let s4 := s3.filter (fun c => c.isLower || c.isDigit || isPySpace c)
  pyStrip (collapseWS s4)

/-- Length of a longest common subsequence (basis of the InDel distance
used by `rapidfuzz.fuzz.ratio`). -/
def lcsLen : Str → Str → ℕ
  | [], _ => 0
  | _ :: _, [] => 0
  | a :: as, b :: bs =>
    if a = b then 1 + lcsLen as bs
    else max (lcsLen (a :: as) bs) (lcsLen as (b :: bs))
termination_by a b => a.length + b.length
decreasing_by all_goals simp +arith

/-- `rapidfuzz.fuzz.ratio(a, b) / 100`: normalized InDel similarity
`1 - indel/(|a|+|b|) = 2·lcs/(|a|+|b|)`, and 1 when both are empty. -/
def fuzzRatio01 (a b : Str) : ℚ :=
  if a.length + b.length = 0 then 1
  else (2 * lcsLen a b : ℚ) / (a.length + b.length)

/-- Worker for `splitWS` accumulating the current (reversed) token. -/
def splitGo (cur : Str) : Str → List Str
  | [] => if cur = [] then [] else [cur.reverse]
  | c :: r =>
    if isPySpace c then
      if cur = [] then splitGo [] r else cur.reverse :: splitGo [] r
    else splitGo (c :: cur) r

/-- Python `str.split()`: split on whitespace runs, dropping empties. -/
def splitWS (s : Str) : List Str := splitGo [] s

/-- Codepoint-order lexicographic comparison of strings (Python `sorted`). -/
def strLexLe : Str → Str → Bool
  | [], _ => true
  | _ :: _, [] => false
  | a :: as, b :: bs =>
    if a.toNat < b.toNat then true
    else if b.toNat < a.toNat then false
    else strLexLe as bs

/-- Stable insertion of `x` before the first element it is `le` to. -/
def insertBy {α : Type} (le : α → α → Bool) (x : α) : List α → List α
  | [] => [x]
  | y :: l => if le x y then x :: y :: l else y :: insertBy le x l

/-- Stable insertion sort (models Python's stable `sorted`). -/
def sortBy {α : Type} (le : α → α → Bool) : List α → List α
  | [] => []
  | a :: l => insertBy le a (sortBy le l)

/-- `rapidfuzz.fuzz.token_sort_ratio(a, b) / 100`: sort the whitespace
tokens, rejoin with single spaces, then take the plain ratio. -/
def tokenSortRatio01 (a b : Str) : ℚ :=
  fuzzRatio01 (List.intercalate [' '] (sortBy strLexLe (splitWS a)))
    (List.intercalate [' '] (sortBy strLexLe (splitWS b)))

/-- State threaded through `_find_best_match`:
(best_match, best_score, all_matches). -/
abbrev MatchState := Option CanonicalField × ℚ × List (CanonicalField × ℚ)

/-- The exact-match pass of `_find_best_match`: compare the lowercased,
stripped raw header with each lowercased variant; record confidence 1.0. -/
def exactPass (origLower : Str) : MatchState :=
  COLUMN_VARIANTS.foldl (fun st p =>
    p.2.foldl (fun st v =>
      if origLower = v.map pyLower then
        if (1 : ℚ) > st.2.1 then (some p.1, 1, st.2.2 ++ [(p.1, 1)])
        else (st.1, st.2.1, st.2.2 ++ [(p.1, 1)])
      else st) st) (none, 0, [])

/-- The fuzzy pass of `_find_best_match`: `max(ratio, token_sort_ratio)`
(no partial_ratio), collect scores ≥ 0.80, best strictly-greater wins. -/
def fuzzyPass (normalized : Str) (st0 : MatchState) : MatchState :=
  COLUMN_VARIANTS.foldl (fun st p =>
    p.2.foldl (fun st v =>
      let score := max (fuzzRatio01 normalized v) (tokenSortRatio01 normalized v)
      if score ≥ SIMILARITY_THRESHOLD then
        if score > st.2.1 then (some p.1, score, st.2.2 ++ [(p.1, score)])
        else (st.1, st.2.1, st.2.2 ++ [(p.1, score)])
      else st) st) st0

/-- `ColumnDetector._find_best_match`: exact pass first; if it scored 1.0
return immediately, otherwise run the fuzzy pass. -/
def findBestMatch (normalized original : Str) : MatchState :=
  let origLower := pyStrip (original.map pyLower)
  let ex := exactPass origLower
  if ex.2.1 = 1 then ex else fuzzyPass normalized ex

/-- `models.ColumnMapping`: one optional raw header per canonical field,
per-field confidence scores, and the ambiguity annotations. -/
structure ColMap where
  serial_number : Option Str := none
  acknowledgement_number : Option Str := none
  bank_account_number : Option Str := none
  ifsc_code : Option Str := none
  address : Option Str := none
  amount : Option Str := none
  disputed_amount : Option Str := none
  bank_name : Option Str := none
  district : Option Str := none
  state : Option Str := none
  confidence_scores : CanonicalField → Option ℚ := fun _ => none
  ambiguous_mappings : List (Str × List CanonicalField) := []

/-- `getattr(mapping, field)` as an explicit switch. -/
def getCMField (m : ColMap) : CanonicalField → Option Str
  | CanonicalField.serial_number => m.serial_number
  | CanonicalField.acknowledgement_number => m.acknowledgement_number
  | CanonicalField.bank_account_number => m.bank_account_number
  | CanonicalField.ifsc_code => m.ifsc_code
  | CanonicalField.address => m.address
  | CanonicalField.amount => m.amount
  | CanonicalField.disputed_amount => m.disputed_amount
  | CanonicalField.bank_name => m.bank_name
  | CanonicalField.district => m.district
  | CanonicalField.state => m.state

/-- `setattr(mapping, field, header)` together with the matching
`confidence_scores[field] = score` update. -/
def setCMField (m : ColMap) (f : CanonicalField) (h : Str) (sc : ℚ) : ColMap :=
  let m' :=
    match f with
    | CanonicalField.serial_number => { m with serial_number := some h }
    | CanonicalField.acknowledgement_number => { m with acknowledgement_number := some h }
    | CanonicalField.bank_account_number => { m with bank_account_number := some h }
    | CanonicalField.ifsc_code => { m with ifsc_code := some h }
    | CanonicalField.address => { m with address := some h }
    | CanonicalField.amount => { m with amount := some h }
    | CanonicalField.disputed_amount => { m with disputed_amount := some h }
    | CanonicalField.bank_name => { m with bank_name := some h }
    | CanonicalField.district => { m with district := some h }
    | CanonicalField.state => { m with state := some h }
  { m' with confidence_scores := fun g => if g = f then some sc else m.confidence_scores g }

/-- One iteration of the header loop of `ColumnDetector.detect_columns`. -/
def detectStep (st : ColMap) (header : Str) : ColMap :=
  let normalized := normalize_header header
  let r := findBestMatch normalized header
  match r.1 with
  | none => st
  | some f =>
    let uniqueTypes := dedupF (r.2.2.map Prod.fst)
    let st1 :=
      if uniqueTypes.length > 1 then
        { st with ambiguous_mappings := st.ambiguous_mappings ++ [(header, uniqueTypes)] }
      else st
    match getCMField st1 f with
    | some _ =>
      if r.2.1 > (st1.confidence_scores f).getD 0 then setCMField st1 f header r.2.1
      else st1
    | none => setCMField st1 f header r.2.1

/-- `ColumnDetector.detect_columns`. -/
def detect_columns (headers : List Str) : ColMap :=
  headers.foldl detectStep {}

/-! ## Tabular data model -/

/-- A cell value: either a string or a number (pipeline amount columns are
numeric after cleaning; everything else is text). -/
inductive Val : Type
  | vstr (s : Str)
  | vnum (q : ℚ)
deriving DecidableEq

/-- A cell (`none` is NaN/None). -/
abbrev Cell := Option Val

/-- Python `str()` of a cell value. Numeric rendering only matters to the
pipeline through being nonempty and is given a plain decimal form (sign,
integer digits, two fractional digits). -/
def pyStrOfVal : Val → Str
  | Val.vstr s => s
  | Val.vnum q =>
    (if q < 0 then ['-'] else []) ++ toDigits (Int.toNat ⌊|q|⌋) ++
      '.' :: toDigits (Int.toNat ⌊|q| * 100⌋ % 100)

/-- A tabular dataset: named columns over rows of cells. -/
structure DFrame where
  headers : List Str
  rows : List (List Cell)

/-- Index of a raw header in the dataset's columns (`col in df.columns`). -/
def colIdx (df : DFrame) (name : Str) : Option ℕ :=
  df.headers.findIdx? (fun h => h = name)

/-- Cell of a row at a column index (missing positions read as null). -/
def getCell (r : List Cell) (i : ℕ) : Cell := (r.getD i none)

/-! ## AggregationEngine (src/aggregation_engine.py) -/

/-- Round-half-to-even on rationals (Python `round`'s tie rule). -/
def rhe (q : ℚ) : ℤ :=
  if q - ⌊q⌋ = 1 / 2 then (if 2 ∣ ⌊q⌋ then ⌊q⌋ else ⌊q⌋ + 1) else round q

/-- Python `round(x, 2)`. -/
def pyRound2 (q : ℚ) : ℚ := rhe (q * 100) / 100

/-- `AggregationEngine.calculate_risk_score`. -/
def calculate_risk_score (transaction_count : ℤ) (total_amount : ℚ) : ℚ :=
  let transaction_score := min ((transaction_count : ℚ) / 100) 1 * 100
  let amount_score := min (total_amount / 10000000) 1 * 100
  pyRound2 (4 / 10 * transaction_score + 6 / 10 * amount_score)

/-- `notna() & (astype(str).str.strip() != '')` for a single cell value. -/
def stripNEVal (v : Val) : Bool := pyStrip (pyStrOfVal v) ≠ []

/-- `AggregationEngine._concat_unique`: dropna, stringify, keep values that
are nonempty after stripping (the values themselves are NOT stripped),
first-occurrence-unique, join with `;`. -/
def concatUnique (cells : List Cell) : Str :=
  let nonNull := (cells.filterMap id).map pyStrOfVal
  List.intercalate [';'] (dedupF (nonNull.filter (fun s => pyStrip s ≠ [])))

/-- `AggregationEngine._fast_mode`: dropna, drop values empty after
stripping, then the most frequent value. pandas' tie order among equally
frequent values is unspecified; first-encountered value is taken (the
deterministic reading mandated by the spec's design notes). -/
def fastMode (cells : List Cell) : Str :=
  let nonEmpty := (cells.filterMap id).filter stripNEVal
  match (dedupF nonEmpty).foldl
      (fun acc v =>
        match acc with
        | none => some (v, nonEmpty.count v)
        | some (w, cw) =>
          if nonEmpty.count v > cw then some (v, nonEmpty.count v) else some (w, cw))
      none with
  | some (v, _) => pyStrOfVal v
  | none => []

/-- Numeric group sum over an optionally mapped column (`groupby(...).agg
'sum'` skips NaN; missing aggregate columns read as 0 through
`row.get(..., 0)`). -/
def sumCol (df : DFrame) (c : Option Str) (grp : List (List Cell)) : ℚ :=
  match c with
  | none => 0
  | some cn =>
    match colIdx df cn with
    | none => 0
    | some i =>
      (grp.map (fun r =>
        match getCell r i with
        | some (Val.vnum q) => q
        | _ => 0)).sum

/-- Modal value over an optionally mapped column, empty when unmapped. -/
def modeCol (df : DFrame) (c : Option Str) (grp : List (List Cell)) : Str :=
  match c with
  | none => []
  | some cn =>
    match colIdx df cn with
    | none => []
    | some i => fastMode (grp.map (fun r => getCell r i))

/-- `models.AggregatedAccount`. -/
structure AggregatedAccount where
  account_number : Str
  bank_name : Str
  ifsc_code : Str
  address : Str
  district : Str
  state : Str
  total_transactions : ℕ
  acknowledgement_numbers : Str
  total_amount : ℚ
  total_disputed_amount : ℚ
  risk_score : ℚ
deriving DecidableEq

/-- `AggregationEngine.aggregate_by_account`: filter out rows whose account
cell is null or empty after stripping, group by the (raw) account value,
and build one `AggregatedAccount` per group. The output order of
`aggregate` is unspecified by the spec (pandas sorts group keys); groups
are listed in first-occurrence order here. -/
def aggregate_by_account (df : DFrame) (m : ColMap) : List AggregatedAccount :=
  if df.rows.isEmpty then []
  else
    match m.bank_account_number with
    | none => []
    | some acol =>
      match colIdx df acol with
      | none => []
      | some ai =>
        let kept := df.rows.filter (fun r =>
          match getCell r ai with
          | some v => stripNEVal v
          | none => false)
        if kept.isEmpty then []
        else
          let keys := dedupF (kept.filterMap (fun r => getCell r ai))
          keys.map (fun k =>
            let grp := kept.filter (fun r => getCell r ai = some k)
            let txns := grp.length
            let amt := sumCol df m.amount grp
            let ack : Str :=
              match m.acknowledgement_number with
              | some c =>
                match colIdx df c with
                | some ci => concatUnique (grp.map (fun r => getCell r ci))
                | none => []
              | none => []
            { account_number := pyStrOfVal k
              bank_name := modeCol df m.bank_name grp
              ifsc_code := modeCol df m.ifsc_code grp
              address := modeCol df m.address grp
              district := modeCol df m.district grp
              state := modeCol df m.state grp
              total_transactions := txns
              acknowledgement_numbers := ack
              total_amount := amt
              total_disputed_amount := sumCol df m.disputed_amount grp
              risk_score := calculate_risk_score (txns : ℤ) amt })

/-- Sort key of `AggregationEngine.sort_results`:
`(-total_amount, -total_transactions)`, compared ascending. -/
def keyOf (a : AggregatedAccount) : ℚ × ℤ :=
  (-a.total_amount, -(a.total_transactions : ℤ))

/-- Lexicographic ≤ on the Python key tuple. -/
def keyLe (p q : ℚ × ℤ) : Prop := p.1 < q.1 ∨ (p.1 = q.1 ∧ p.2 ≤ q.2)

instance : DecidablePred fun pq : (ℚ × ℤ) × ℚ × ℤ => keyLe pq.1 pq.2 := by
  intro pq; unfold keyLe; infer_instance

instance (p q : ℚ × ℤ) : Decidable (keyLe p q) := by
  unfold keyLe; infer_instance

/-- `AggregationEngine.sort_results`: Python's stable `sorted` with key
`(-total_amount, -total_transactions)`, as a stable insertion sort. -/
def sort_results (l : List AggregatedAccount) : List AggregatedAccount :=
  sortBy (fun a b => decide (keyLe (keyOf a) (keyOf b))) l

/-! ## DataProcessor account-number standardization -/

/-- `\s` or dash, the class removed by
`standardize_account_numbers_vectorized`. -/
def isSpaceDash (c : Char) : Bool := isPySpace c || c = '-'

/-- One element of
`DataProcessor.standardize_account_numbers_vectorized`: `astype(str)`
(null renders as the literal `nan`), remove `[\s\-]`, then send the
residual `nan`/`None`/empty literals to null. -/
def stdAcctCell (c : Cell) : Cell :=
  let s := match c with
    | none => ['n', 'a', 'n']
    | some v => pyStrOfVal v
  let s2 := s.filter (fun ch => !isSpaceDash ch)
  if s2 = ['n', 'a', 'n'] ∨ s2 = ['N', 'o', 'n', 'e'] ∨ s2 = [] then none
  else some (Val.vstr s2)

/-- Apply the account-number standardization to one column of a dataset
(the step `clean_dataframe` performs when `bank_account_number` is
mapped). -/
def cleanAccountCol (df : DFrame) (ai : ℕ) : DFrame :=
  { df with rows := df.rows.map (fun r => r.set ai (stdAcctCell (getCell r ai))) }

/-! ## Specification-side reference definitions

These follow the specification's words (not the source) and are compared
with the source-derived definitions above. -/

/-- Account values of the rows that survive the null/empty filter of
`aggregate_by_account`. -/
def keptVals (df : DFrame) (ai : ℕ) : List Val :=
  df.rows.filterMap (fun r =>
    match getCell r ai with
    | some v => if stripNEVal v then some v else none
    | none => none)

/-- The spec's description of the consolidated acknowledgement string, as
the claim states it: values stringified AND STRIPPED, null/empty discarded,
first-occurrence deduplication, semicolon join. -/
def ackGroupClaim (cells : List Cell) : Str :=
  List.intercalate [';']
    (dedupF (((cells.filterMap id).map (fun v => pyStrip (pyStrOfVal v))).filter
      (fun s => s ≠ [])))

/-- The amended description (what the source does): values stringified and
joined VERBATIM; only the emptiness test uses stripping. -/
def ackGroupAmended (cells : List Cell) : Str :=
  List.intercalate [';']
    (dedupF (((cells.filterMap id).map pyStrOfVal).filter
      (fun s => pyStrip s ≠ [])))

/-- `(best_match, best_score)` the detector computes for one header. -/
def bestOf (h : Str) : Option CanonicalField × ℚ :=
  let r := findBestMatch (normalize_header h) h
  (r.1, r.2.1)

/-- The candidate (header, score) stream a canonical field sees, in input
order. -/
def candidatesFor (f : CanonicalField) (headers : List Str) : List (Str × ℚ) :=
  headers.filterMap (fun h =>
    match bestOf h with
    | (some f', s) => if f' = f then some (h, s) else none
    | (none, _) => none)

/-- The spec's override rule, verbatim: a later candidate replaces the
held one only when its score strictly exceeds it (first-seen wins ties). -/
def fmStep (acc : Option (Str × ℚ)) (c : Str × ℚ) : Option (Str × ℚ) :=
  match acc with
  | none => some c
  | some a => if c.2 > a.2 then some c else some a

/-- First candidate attaining the maximum score, by folding the override
rule over the candidate stream. -/
def firstMaxCand (cs : List (Str × ℚ)) : Option (Str × ℚ) :=
  cs.foldl fmStep none

/-- (assigned header, recorded confidence) for a field of a mapping. -/
def pairOfCM (m : ColMap) (f : CanonicalField) : Option (Str × ℚ) :=
  (getCMField m f).map (fun h => (h, (m.confidence_scores f).getD 0))

/-- Two-digit rendering of a cents value. -/
def twoDig (c : ℕ) : Str := [dChar (c / 10), dChar (c % 10)]

/-- Modelled from the spec: `format(A, marker)` — the repository has no
formatter, so the spec's "amount A rendered to 2 decimal places with a
supported currency marker, with or without comma grouping" is modelled as
the marker followed by a comma-grouped integer part, a dot and two cents
digits. -/
def formatAmount (marker gint : Str) (c : ℕ) : Str :=
  marker ++ (gint ++ '.' :: twoDig c)

/-- `gint` is a rendering of the integer part `m` with optional comma
grouping: digits and commas only, starting with a digit, and equal to the
decimal digits of `m` once commas are removed. -/
def gintOK (gint : Str) (m : ℕ) : Prop :=
  (∀ c ∈ gint, c.isDigit = true ∨ c = ',') ∧
  gint.filter (fun c => c ≠ ',') = toDigits m ∧
  (∀ d, gint.head? = some d → d.isDigit = true)

/-- Character restriction under which the scalar and vectorized amount
parsers are compared: no underscore (where Python's `float` and pandas'
parser genuinely disagree) and no letters (excluding the textual
`nan`/`inf` spellings, which are outside the modelled numeric fragment). -/
def plainNumChars (s : Str) : Prop :=
  ∀ c ∈ s, ¬(c = '_' ∨ c.isAlpha = true)

/-- No two adjacent whitespace characters (the shape `re.sub(r'\s+', ' ')`
leaves behind). -/
def noAdjWS (a b : Char) : Prop := ¬(isPySpace a = true ∧ isPySpace b = true)

/-! ## Concrete datasets used as witnesses and counterexamples -/

/-- Five rows under one `acct` column: two occurrences of `1`, one `2`,
one whitespace-only cell and one null cell. -/
def dfC1 : DFrame :=
  { headers := [['a', 'c', 'c', 't']]
    rows := [[some (Val.vstr ['1'])], [some (Val.vstr [' '])], [none],
      [some (Val.vstr ['1'])], [some (Val.vstr ['2'])]] }

/-- Mapping whose account column is `acct`. -/
def mC1 : ColMap := { bank_account_number := some ['a', 'c', 'c', 't'] }

/-- One row with account `1` and the whitespace-padded acknowledgement
value `" A "`. -/
def dfC7 : DFrame :=
  { headers := [['a'], ['k']]
    rows := [[some (Val.vstr ['1']), some (Val.vstr [' ', 'A', ' '])]] }

/-- Mapping for `dfC7`: account column `a`, acknowledgement column `k`. -/
def mC7 : ColMap :=
  { bank_account_number := some ['a'], acknowledgement_number := some ['k'] }

/-- One row whose account value `AB-12` contains letters and a dash. -/
def dfC8 : DFrame :=
  { headers := [['a']], rows := [[some (Val.vstr ['A', 'B', '-', '1', '2'])]] }

/-- Mapping for `dfC8`. -/
def mC8 : ColMap := { bank_account_number := some ['a'] }

/-! # Theorems -/

/-! ## C3: risk score -/

theorem rhe_bounds (x : ℚ) (h0 : 0 ≤ x) (h1 : x ≤ 10000) :
    0 ≤ rhe x ∧ rhe x ≤ 10000 := by
  unfold rhe
  split_ifs with ht hd
  · refine ⟨Int.le_floor.mpr (by exact_mod_cast h0), ?_⟩
    have h := Int.floor_le x
    have : (⌊x⌋ : ℚ) ≤ 10000 := le_trans h h1
    exact_mod_cast this
  · constructor
    · have : (0 : ℤ) ≤ ⌊x⌋ := Int.le_floor.mpr (by exact_mod_cast h0)
      omega
    · have hfx : (⌊x⌋ : ℚ) = x - 1 / 2 := by linarith
      have hq : (⌊x⌋ : ℚ) < 10000 := by rw [hfx]; linarith
      have : ⌊x⌋ < 10000 := by exact_mod_cast hq
      omega
  · rw [round_eq]
    constructor
    · exact Int.le_floor.mpr (by push_cast; linarith)
    · have h := Int.floor_le (x + 1 / 2)
      have hq : (⌊x + 1 / 2⌋ : ℚ) < 10001 := by linarith
      have : ⌊x + 1 / 2⌋ < 10001 := by exact_mod_cast hq
      omega

theorem pyRound2_bounds (q : ℚ) (h0 : 0 ≤ q) (h1 : q ≤ 100) :
    0 ≤ pyRound2 q ∧ pyRound2 q ≤ 100 := by
  obtain ⟨a, b⟩ := rhe_bounds (q * 100) (by linarith) (by linarith)
  unfold pyRound2
  constructor
  · exact div_nonneg (by exact_mod_cast a) (by norm_num)
  · rw [div_le_iff (by norm_num : (0 : ℚ) < 100)]
    have : ((rhe (q * 100)) : ℚ) ≤ 10000 := by exact_mod_cast b
    linarith

/-- C3 (amended): for nonnegative inputs, `calculate_risk_score` is the
pure function `round(0.4·min(count/100,1)·100 + 0.6·min(amount/1e7,1)·100, 2)`
and its value lies in [0, 100]. (Unrestricted, the bound fails: see the
counterexample.) -/
theorem risk_score_formula_and_bounds (n : ℤ) (a : ℚ) (hn : 0 ≤ n) (ha : 0 ≤ a) :
    calculate_risk_score n a =
      pyRound2 (4 / 10 * (min ((n : ℚ) / 100) 1 * 100) +
        6 / 10 * (min (a / 10000000) 1 * 100)) ∧
    0 ≤ calculate_risk_score n a ∧ calculate_risk_score n a ≤ 100 := by
  refine ⟨rfl, ?_⟩
  have hn0 : (0 : ℚ) ≤ (n : ℚ) := by exact_mod_cast hn
  have t1 : 0 ≤ min ((n : ℚ) / 100) 1 := le_min (by positivity) (by norm_num)
  have t2 : min ((n : ℚ) / 100) 1 ≤ 1 := min_le_right _ _
  have s1 : 0 ≤ min (a / 10000000) 1 := le_min (by positivity) (by norm_num)
  have s2 : min (a / 10000000) 1 ≤ 1 := min_le_right _ _
  unfold calculate_risk_score
  exact pyRound2_bounds _ (by nlinarith) (by nlinarith)

/-- C3 counterexample: with a negative total amount (reachable through the
parenthesized-negative amount notation) the risk score is far below 0, so
"result always in [0, 100] for every pair of inputs" is false of the code. -/
theorem risk_score_not_bounded :
    calculate_risk_score 0 (-(10 ^ 9)) = -6000 ∧
      ¬(0 ≤ calculate_risk_score 0 (-(10 ^ 9))) := by
  have h : calculate_risk_score 0 (-(10 ^ 9)) = -6000 := by
    unfold calculate_risk_score pyRound2 rhe
    rw [min_def, min_def]
    norm_num [round_eq]
  refine ⟨h, by rw [h]; norm_num⟩

/-- Witness for C3 at the spec's own worked example (2 transactions,
total 40000). -/
theorem risk_score_formula_and_bounds_witness :
    0 ≤ calculate_risk_score 2 40000 ∧ calculate_risk_score 2 40000 ≤ 100 :=
  (risk_score_formula_and_bounds 2 40000 (by norm_num) (by norm_num)).2

/-! ## C5: exact variant recognition -/

/-- C5: for every canonical field and every lexicon variant of it,
resolving the single-header list made of that variant assigns the variant
to the field with confidence exactly 1.0. -/
theorem exact_variant_recognition (F : CanonicalField) (vs : List Str) (v : Str)
    (hFv : (F, vs) ∈ COLUMN_VARIANTS) (hv : v ∈ vs) :
    getCMField (detect_columns [v]) F = some v ∧
    (detect_columns [v]).confidence_scores F = some 1 := by
  fin_cases hFv <;> fin_cases hv <;> exact ⟨by decide, by decide⟩

/-- Witness for C5 at the `amount` field's first variant. -/
theorem exact_variant_recognition_witness :
    getCMField (detect_columns [['a', 'm', 'o', 'u', 'n', 't']]) CanonicalField.amount
        = some ['a', 'm', 'o', 'u', 'n', 't'] ∧
    (detect_columns [['a', 'm', 'o', 'u', 'n', 't']]).confidence_scores CanonicalField.amount
        = some 1 :=
  exact_variant_recognition CanonicalField.amount
    [['a', 'm', 'o', 'u', 'n', 't'],
     ['t', 'r', 'a', 'n', 's', 'a', 'c', 't', 'i', 'o', 'n', ' ', 'a', 'm', 'o', 'u', 'n', 't'],
     ['t', 'x', 'n', ' ', 'a', 'm', 'o', 'u', 'n', 't'],
     ['t', 'r', 'a', 'n', 's', 'f', 'e', 'r', ' ', 'a', 'm', 'o', 'u', 'n', 't'],
     ['f', 'r', 'a', 'u', 'd', ' ', 'a', 'm', 'o', 'u', 'n', 't']]
    ['a', 'm', 'o', 'u', 'n', 't'] (by decide) (by decide)

/-! ## C9: normalize_header idempotence -/

theorem dropWhile_dropWhile (p : Char → Bool) (l : Str) :
    (l.dropWhile p).dropWhile p = l.dropWhile p := by
  induction l with
  | nil => rfl
  | cons c r ih =>
    by_cases h : p c
    · simpa [List.dropWhile, h] using ih
    · simp [List.dropWhile, h]

theorem head?_dropWhile_false {p : Char → Bool} {l : Str} {c : Char}
    (h : (l.dropWhile p).head? = some c) : p c = false := by
  induction l with
  | nil => simp at h
  | cons a r ih =>
    by_cases ha : p a
    · exact ih (by simpa [List.dropWhile, ha] using h)
    · simp only [List.dropWhile, ha, Bool.false_eq_true, if_false, List.head?_cons,
        Option.some.injEq] at h
      rw [← h]
      simpa using ha

theorem dropWhile_eq_self_of_head {p : Char → Bool} {l : Str}
    (h : ∀ c, l.head? = some c → p c = false) : l.dropWhile p = l := by
  cases l with
  | nil => rfl
  | cons a r => simp [List.dropWhile, h a rfl]

theorem pyStrip_idem (s : Str) : pyStrip (pyStrip s) = pyStrip s := by
  unfold pyStrip
  set A := s.dropWhile isPySpace with hA
  set B := A.reverse.dropWhile isPySpace with hB
  have h1 : B.reverse.dropWhile isPySpace = B.reverse := by
    apply dropWhile_eq_self_of_head
    intro c hc
    rw [List.head?_reverse] at hc
    have hBne : B ≠ [] := by
      intro h
      rw [h] at hc
      simp at hc
    obtain ⟨pre, hpre⟩ := (List.dropWhile_suffix isPySpace : _ <:+ A.reverse)
    have h2 : B.getLast? = A.reverse.getLast? := by
      rw [← hpre, List.getLast?_append_of_ne_nil _ hBne]
    rw [h2, List.getLast?_reverse] at hc
    exact head?_dropWhile_false hc
  rw [h1, List.reverse_reverse]
  rw [hB, dropWhile_dropWhile]

theorem collapseGo_cons (b : Bool) (a : Char) (r : Str) :
    collapseGo b (a :: r) =
      if isPySpace a then
        (if b then collapseGo true r else ' ' :: collapseGo true r)
      else a :: collapseGo false r := rfl

theorem mem_collapseGo {c : Char} : ∀ {b : Bool} {l : Str}, c ∈ collapseGo b l →
    c = ' ' ∨ (c ∈ l ∧ isPySpace c = false) := by
  intro b l
  induction l generalizing b with
  | nil => intro h; simp [collapseGo] at h
  | cons a r ih =>
    intro h
    rw [collapseGo_cons] at h
    by_cases ha : isPySpace a
    · rw [if_pos ha] at h
      cases b with
      | true =>
        rcases ih (by simpa using h) with h1 | ⟨h1, h2⟩
        · exact Or.inl h1
        · exact Or.inr ⟨List.mem_cons_of_mem _ h1, h2⟩
      | false =>
        rw [if_neg (by simp)] at h
        rcases List.mem_cons.mp h with h0 | h0
        · exact Or.inl h0
        · rcases ih h0 with h1 | ⟨h1, h2⟩
          · exact Or.inl h1
          · exact Or.inr ⟨List.mem_cons_of_mem _ h1, h2⟩
    · rw [if_neg ha] at h
      rcases List.mem_cons.mp h with h0 | h0
      · exact Or.inr ⟨by rw [h0]; exact List.mem_cons_self _ _, by rw [h0]; simpa using ha⟩
      · rcases ih h0 with h1 | ⟨h1, h2⟩
        · exact Or.inl h1
        · exact Or.inr ⟨List.mem_cons_of_mem _ h1, h2⟩

theorem collapseGo_head_true {l : Str}
    (hc : ∀ c, l.head? = some c → isPySpace c = false) :
    collapseGo true l = collapseGo false l := by
  cases l with
  | nil => rfl
  | cons a r => simp [collapseGo, hc a rfl]

theorem chain'_collapseGo (b : Bool) (l : Str) :
    List.Chain' noAdjWS (collapseGo b l) ∧
    (b = true → ∀ c, (collapseGo b l).head? = some c → isPySpace c = false) := by
  induction l generalizing b with
  | nil => exact ⟨List.chain'_nil, by intro _ c hc; simp [collapseGo] at hc⟩
  | cons a r ih =>
    rw [collapseGo_cons]
    by_cases ha : isPySpace a
    · rw [if_pos ha]
      cases b with
      | true => simpa using ih true
      | false =>
        rw [if_neg (by simp)]
        obtain ⟨ihc, ihh⟩ := ih true
        refine ⟨List.chain'_cons'.mpr ⟨?_, ihc⟩, by intro h; cases h⟩
        intro y hy
        have hyw := ihh rfl y hy
        intro hcon
        rw [hyw] at hcon
        exact absurd hcon.2 (by simp)
    · rw [if_neg ha]
      obtain ⟨ihc, _⟩ := ih false
      constructor
      · refine List.chain'_cons'.mpr ⟨?_, ihc⟩
        intro y _
        intro hcon
        rw [show isPySpace a = false by simpa using ha] at hcon
        exact absurd hcon.1 (by simp)
      · intro _ c hc
        simp only [List.head?_cons, Option.some.injEq] at hc
        rw [← hc]
        simpa using ha

theorem collapseGo_false_fix (l : Str) (h1 : List.Chain' noAdjWS l)
    (h2 : ∀ c ∈ l, isPySpace c = true → c = ' ') : collapseGo false l = l := by
  induction l with
  | nil => rfl
  | cons a r ih =>
    rw [collapseGo_cons]
    by_cases ha : isPySpace a
    · have haSp : a = ' ' := h2 a (List.mem_cons_self _ _) (by simpa using ha)
      rw [if_pos ha, if_neg (by simp)]
      have hr : collapseGo true r = collapseGo false r := by
        apply collapseGo_head_true
        intro c hc
        have hn := (List.chain'_cons'.mp h1).1 c hc
        unfold noAdjWS at hn
        by_contra hcon
        exact hn ⟨by simpa using ha, by simpa using hcon⟩
      rw [haSp, hr, ih (List.chain'_cons'.mp h1).2
        (fun c hc hw => h2 c (List.mem_cons_of_mem _ hc) hw)]
    · rw [if_neg ha]
      rw [ih (List.chain'_cons'.mp h1).2
        (fun c hc hw => h2 c (List.mem_cons_of_mem _ hc) hw)]

theorem chain'_pyStrip {R : Char → Char → Prop} (hsym : ∀ a b, R a b → R b a)
    {l : Str} (h : List.Chain' R l) : List.Chain' R (pyStrip l) := by
  unfold pyStrip
  have h1 : List.Chain' R (l.dropWhile isPySpace) :=
    h.suffix (List.dropWhile_suffix _)
  have h2 : List.Chain' R (l.dropWhile isPySpace).reverse :=
    List.chain'_reverse.mpr (List.Chain'.imp (fun a b hab => hsym a b hab) h1)
  have h3 : List.Chain' R ((l.dropWhile isPySpace).reverse.dropWhile isPySpace) :=
    h2.suffix (List.dropWhile_suffix _)
  exact List.chain'_reverse.mpr (List.Chain'.imp (fun a b hab => hsym a b hab) h3)

theorem mem_pyStrip {c : Char} {l : Str} (h : c ∈ pyStrip l) : c ∈ l := by
  unfold pyStrip at h
  rw [List.mem_reverse] at h
  have h1 := (List.dropWhile_suffix isPySpace : _ <:+ (l.dropWhile isPySpace).reverse).subset h
  rw [List.mem_reverse] at h1
  exact (List.dropWhile_suffix isPySpace : _ <:+ l).subset h1

theorem alnum_not_ws {c : Char} (h : (c.isLower || c.isDigit) = true) :
    isPySpace c = false := by
  by_contra hcon
  have hw : isPySpace c = true := by simpa using hcon
  simp only [isPySpace, Bool.or_eq_true, decide_eq_true_eq] at hw
  rcases hw with ((((rfl | rfl) | rfl) | rfl) | rfl) | rfl <;> simp at h

theorem pyLower_fix {c : Char} (h : (c.isLower || c.isDigit) = true ∨ c = ' ') :
    pyLower c = c := by
  unfold pyLower
  rw [if_neg]
  rcases h with h | rfl
  · rcases Bool.or_eq_true_iff.mp h with h | h
    · intro hc
      obtain ⟨h1, h2⟩ := hc
      simp [Char.isLower, Char.le_def, UInt32.le_def, BitVec.le_def] at h h1 h2
      omega
    · intro hc
      obtain ⟨h1, h2⟩ := hc
      simp [Char.isDigit, Char.le_def, UInt32.le_def, BitVec.le_def] at h h1 h2
      omega
  · decide

theorem sep_fix {c : Char} (h : (c.isLower || c.isDigit) = true ∨ c = ' ') :
    (if c = '_' ∨ c = '-' ∨ c = '.' ∨ c = '/' then ' ' else c) = c := by
  rw [if_neg]
  rintro (rfl | rfl | rfl | rfl) <;> rcases h with h | h <;> simp at h

theorem normalize_header_chars (s : Str) :
    ∀ c ∈ normalize_header s, (c.isLower || c.isDigit) = true ∨ c = ' ' := by
  intro c hc
  unfold normalize_header at hc
  have hc' := mem_pyStrip hc
  rcases mem_collapseGo hc' with h | ⟨h4, hws⟩
  · exact Or.inr h
  · rw [List.mem_filter] at h4
    obtain ⟨_, hk⟩ := h4
    simp only [Bool.or_eq_true] at hk
    rcases hk with hk | hk
    · exact Or.inl (Bool.or_eq_true_iff.mpr hk)
    · rw [hws] at hk
      cases hk

theorem normalize_header_chain (s : Str) :
    List.Chain' noAdjWS (normalize_header s) := by
  unfold normalize_header
  exact chain'_pyStrip (fun a b h hc => h ⟨hc.2, hc.1⟩) (chain'_collapseGo false _).1

theorem normalize_header_fix (t : Str)
    (hchars : ∀ c ∈ t, (c.isLower || c.isDigit) = true ∨ c = ' ')
    (hchain : List.Chain' noAdjWS t)
    (hstrip : pyStrip t = t) : normalize_header t = t := by
  have hlow : t.map pyLower = t := by
    rw [List.map_congr_left (fun c hc => pyLower_fix (hchars c hc))]
    exact List.map_id _
  have hsep : t.map (fun c => if c = '_' ∨ c = '-' ∨ c = '.' ∨ c = '/' then ' ' else c)
      = t := by
    rw [List.map_congr_left (fun c hc => sep_fix (hchars c hc))]
    exact List.map_id _
  have hfil : t.filter (fun c => c.isLower || c.isDigit || isPySpace c) = t := by
    rw [List.filter_eq_self]
    intro c hc
    rcases hchars c hc with h | h
    · simp only [Bool.or_eq_true] at h ⊢
      tauto
    · rw [h]; decide
  have hcol : collapseWS t = t := by
    unfold collapseWS
    apply collapseGo_false_fix t hchain
    intro c hc hw
    rcases hchars c hc with h | h
    · rw [alnum_not_ws h] at hw; cases hw
    · exact h
  simp only [normalize_header]
  rw [hstrip, hlow, hsep, hfil, hcol, hstrip]

/-- C9: `normalize_header` is idempotent (it is total by construction:
every input yields a possibly empty string). -/
theorem normalize_header_idempotent (s : Str) :
    normalize_header (normalize_header s) = normalize_header s := by
  apply normalize_header_fix
  · exact normalize_header_chars s
  · exact normalize_header_chain s
  · unfold normalize_header
    exact pyStrip_idem _

/-! ## C2: sort order and stability -/

theorem keyLe_total (p q : ℚ × ℤ) : keyLe p q ∨ keyLe q p := by
  unfold keyLe
  rcases lt_trichotomy p.1 q.1 with h | h | h
  · exact Or.inl (Or.inl h)
  · rcases Int.le_total p.2 q.2 with h2 | h2
    · exact Or.inl (Or.inr ⟨h, h2⟩)
    · exact Or.inr (Or.inr ⟨h.symm, h2⟩)
  · exact Or.inr (Or.inl h)

theorem keyLe_trans {p q r : ℚ × ℤ} (h1 : keyLe p q) (h2 : keyLe q r) : keyLe p r := by
  unfold keyLe at *
  rcases h1 with h1 | ⟨h1a, h1b⟩
  · rcases h2 with h2 | ⟨h2a, h2b⟩
    · exact Or.inl (lt_trans h1 h2)
    · exact Or.inl (h2a ▸ h1)
  · rcases h2 with h2 | ⟨h2a, h2b⟩
    · exact Or.inl (h1a ▸ h2)
    · exact Or.inr ⟨h1a.trans h2a, le_trans h1b h2b⟩

theorem keyLe_of_not {p q : ℚ × ℤ} (h : ¬keyLe p q) : keyLe q p := by
  rcases keyLe_total p q with h1 | h1
  · exact absurd h1 h
  · exact h1

theorem keyLe_of_eq {p q : ℚ × ℤ} (h : p = q) : keyLe p q := by
  rw [h]; exact Or.inr ⟨rfl, le_refl _⟩

/-- The Boolean comparator `sort_results` uses. -/
theorem mem_insertBy {α : Type} (le : α → α → Bool) (x a : α) :
    ∀ l : List α, a ∈ insertBy le x l → a = x ∨ a ∈ l := by
  intro l
  induction l with
  | nil => intro h; simpa [insertBy] using h
  | cons y ys ih =>
    intro h
    unfold insertBy at h
    by_cases hle : le x y
    · rw [if_pos hle] at h
      rcases List.mem_cons.mp h with h0 | h0
      · exact Or.inl h0
      · exact Or.inr h0
    · rw [if_neg hle] at h
      rcases List.mem_cons.mp h with h0 | h0
      · exact Or.inr (by rw [h0]; exact List.mem_cons_self _ _)
      · rcases ih h0 with h1 | h1
        · exact Or.inl h1
        · exact Or.inr (List.mem_cons_of_mem _ h1)

theorem perm_insertBy {α : Type} (le : α → α → Bool) (x : α) :
    ∀ l : List α, (insertBy le x l).Perm (x :: l) := by
  intro l
  induction l with
  | nil => simp [insertBy]
  | cons y ys ih =>
    unfold insertBy
    by_cases hle : le x y
    · rw [if_pos hle]
    · rw [if_neg hle]
      exact ((ih.cons y).trans (List.Perm.swap x y ys))

/-- Comparator abbreviation used below. -/
theorem sort_results_perm (l : List AggregatedAccount) : (sort_results l).Perm l := by
  unfold sort_results
  induction l with
  | nil => rfl
  | cons a t ih =>
    unfold sortBy
    exact (perm_insertBy _ a _).trans (ih.cons a)

theorem pairwise_insertBy (x : AggregatedAccount) (l : List AggregatedAccount)
    (h : List.Pairwise (fun a b => keyLe (keyOf a) (keyOf b)) l) :
    List.Pairwise (fun a b => keyLe (keyOf a) (keyOf b))
      (insertBy (fun a b => decide (keyLe (keyOf a) (keyOf b))) x l) := by
  induction l with
  | nil => simpa [insertBy] using List.pairwise_singleton _ _
  | cons y ys ih =>
    unfold insertBy
    by_cases hle : keyLe (keyOf x) (keyOf y)
    · rw [if_pos (by simpa using hle)]
      refine List.pairwise_cons.mpr ⟨?_, h⟩
      intro b hb
      rcases List.mem_cons.mp hb with h0 | h0
      · rw [h0]; exact hle
      · exact keyLe_trans hle ((List.pairwise_cons.mp h).1 b h0)
    · rw [if_neg (by simpa using hle)]
      obtain ⟨hy, hys⟩ := List.pairwise_cons.mp h
      refine List.pairwise_cons.mpr ⟨?_, ih hys⟩
      intro b hb
      rcases mem_insertBy _ x b _ hb with h0 | h0
      · rw [h0]; exact keyLe_of_not hle
      · exact hy b h0

theorem pairwise_sort_results (l : List AggregatedAccount) :
    List.Pairwise (fun a b => keyLe (keyOf a) (keyOf b)) (sort_results l) := by
  unfold sort_results
  induction l with
  | nil => exact List.Pairwise.nil
  | cons a t ih =>
    unfold sortBy
    exact pairwise_insertBy a _ ih

theorem filter_insertBy_eq (x : AggregatedAccount) (k : ℚ × ℤ) (hx : keyOf x = k) :
    ∀ l : List AggregatedAccount,
      (insertBy (fun a b => decide (keyLe (keyOf a) (keyOf b))) x l).filter
          (fun a => decide (keyOf a = k))
        = x :: l.filter (fun a => decide (keyOf a = k)) := by
  intro l
  induction l with
  | nil => simp [insertBy, hx]
  | cons y ys ih =>
    unfold insertBy
    by_cases hle : keyLe (keyOf x) (keyOf y)
    · rw [if_pos (by simpa using hle)]
      rw [List.filter_cons, if_pos (by simpa using hx)]
    · rw [if_neg (by simpa using hle)]
      have hy : ¬(keyOf y = k) := by
        intro hyk
        exact hle (keyLe_of_eq (hx.trans hyk.symm))
      rw [List.filter_cons, if_neg (by simpa using hy), ih,
        List.filter_cons, if_neg (by simpa using hy)]

theorem filter_insertBy_ne (x : AggregatedAccount) (k : ℚ × ℤ) (hx : ¬(keyOf x = k)) :
    ∀ l : List AggregatedAccount,
      (insertBy (fun a b => decide (keyLe (keyOf a) (keyOf b))) x l).filter
          (fun a => decide (keyOf a = k))
        = l.filter (fun a => decide (keyOf a = k)) := by
  intro l
  induction l with
  | nil => simp [insertBy, hx]
  | cons y ys ih =>
    unfold insertBy
    by_cases hle : keyLe (keyOf x) (keyOf y)
    · rw [if_pos (by simpa using hle)]
      rw [List.filter_cons, if_neg (by simpa using hx)]
    · rw [if_neg (by simpa using hle)]
      rw [List.filter_cons, ih, List.filter_cons]

theorem filter_sort_results (l : List AggregatedAccount) (k : ℚ × ℤ) :
    (sort_results l).filter (fun a => decide (keyOf a = k))
      = l.filter (fun a => decide (keyOf a = k)) := by
  unfold sort_results
  induction l with
  | nil => rfl
  | cons a t ih =>
    unfold sortBy
    by_cases ha : keyOf a = k
    · rw [filter_insertBy_eq a k ha, ih, List.filter_cons, if_pos (by simpa using ha)]
    · rw [filter_insertBy_ne a k ha, ih, List.filter_cons, if_neg (by simpa using ha)]

theorem keyLe_iff_claim (a b : AggregatedAccount) :
    keyLe (keyOf a) (keyOf b) ↔
      (b.total_amount < a.total_amount ∨
        (a.total_amount = b.total_amount ∧ b.total_transactions ≤ a.total_transactions)) := by
  unfold keyLe keyOf
  constructor
  · rintro (h | ⟨h1, h2⟩)
    · exact Or.inl (by simpa using h)
    · refine Or.inr ⟨by simpa using neg_inj.mp h1, ?_⟩
      have : (b.total_transactions : ℤ) ≤ (a.total_transactions : ℤ) := by
        simpa using neg_le_neg_iff.mp h2
      exact_mod_cast this
  · rintro (h | ⟨h1, h2⟩)
    · exact Or.inl (by simpa using h)
    · refine Or.inr ⟨by simpa using h1, ?_⟩
      simp only
      have : (b.total_transactions : ℤ) ≤ (a.total_transactions : ℤ) := by exact_mod_cast h2
      simpa using this

/-- C2: `sort_results` permutes its input into an order where every pair
(earlier, later) has strictly larger total_amount, or equal total_amount
and at-least-as-large total_transactions; accounts equal on both keys keep
their original relative order (stability, expressed per key class). -/
theorem sort_results_spec (l : List AggregatedAccount) :
    (sort_results l).Perm l ∧
    List.Pairwise (fun a b =>
      b.total_amount < a.total_amount ∨
        (a.total_amount = b.total_amount ∧
          b.total_transactions ≤ a.total_transactions)) (sort_results l) ∧
    ∀ k : ℚ × ℤ, (sort_results l).filter (fun a => decide (keyOf a = k))
      = l.filter (fun a => decide (keyOf a = k)) := by
  refine ⟨sort_results_perm l, ?_, filter_sort_results l⟩
  exact (pairwise_sort_results l).imp (fun h => (keyLe_iff_claim _ _).mp h)

/-! ## C6: assignment uniqueness and override rule -/

theorem getCMField_setCMField_eq (m : ColMap) (f : CanonicalField) (h : Str) (sc : ℚ) :
    getCMField (setCMField m f h sc) f = some h := by
  cases f <;> rfl

theorem getCMField_setCMField_ne (m : ColMap) (f g : CanonicalField) (h : Str) (sc : ℚ)
    (hfg : g ≠ f) : getCMField (setCMField m f h sc) g = getCMField m g := by
  cases f <;> cases g <;> first | rfl | exact absurd rfl hfg

theorem conf_setCMField (m : ColMap) (f : CanonicalField) (h : Str) (sc : ℚ)
    (g : CanonicalField) :
    (setCMField m f h sc).confidence_scores g =
      if g = f then some sc else m.confidence_scores g := by
  cases f <;> rfl

theorem getCMField_ambig (m : ColMap) (a : List (Str × List CanonicalField))
    (f : CanonicalField) :
    getCMField { m with ambiguous_mappings := a } f = getCMField m f := by
  cases f <;> rfl

theorem pairOfCM_setCMField_eq (m : ColMap) (f : CanonicalField) (h : Str) (sc : ℚ) :
    pairOfCM (setCMField m f h sc) f = some (h, sc) := by
  unfold pairOfCM
  rw [getCMField_setCMField_eq, conf_setCMField, if_pos rfl]
  rfl

theorem pairOfCM_setCMField_ne (m : ColMap) (f g : CanonicalField) (h : Str) (sc : ℚ)
    (hfg : g ≠ f) : pairOfCM (setCMField m f h sc) g = pairOfCM m g := by
  unfold pairOfCM
  rw [getCMField_setCMField_ne _ _ _ _ _ hfg, conf_setCMField, if_neg hfg]

theorem pairOfCM_ambig (m : ColMap) (a : List (Str × List CanonicalField))
    (f : CanonicalField) :
    pairOfCM { m with ambiguous_mappings := a } f = pairOfCM m f := by
  unfold pairOfCM
  rw [getCMField_ambig]

theorem pairOfCM_detectStep (st : ColMap) (h : Str) (f : CanonicalField) :
    pairOfCM (detectStep st h) f =
      (match bestOf h with
       | (some f', s) => if f' = f then fmStep (pairOfCM st f) (h, s) else pairOfCM st f
       | (none, _) => pairOfCM st f) := by
  simp only [detectStep, bestOf]
  generalize hfb : findBestMatch (normalize_header h) h = r
  obtain ⟨bm, bs, am⟩ := r
  cases bm with
  | none => rfl
  | some f' =>
    simp only
    set st1 :=
      (if (dedupF (List.map Prod.fst am)).length > 1
        then { st with ambiguous_mappings := st.ambiguous_mappings ++
          [(h, dedupF (List.map Prod.fst am))] }
        else st) with hst1
    have hpair1 : ∀ g, pairOfCM st1 g = pairOfCM st g := by
      intro g
      rw [hst1]
      by_cases hc : (dedupF (List.map Prod.fst am)).length > 1
      · rw [if_pos hc, pairOfCM_ambig]
      · rw [if_neg hc]
    have hconf1 : st1.confidence_scores = st.confidence_scores := by
      rw [hst1]
      by_cases hc : (dedupF (List.map Prod.fst am)).length > 1
      · rw [if_pos hc]
      · rw [if_neg hc]
    cases hg : getCMField st1 f' with
    | none =>
      simp only
      by_cases hff : f' = f
      · subst hff
        rw [if_pos rfl, pairOfCM_setCMField_eq]
        have hn : pairOfCM st f' = none := by
          rw [← hpair1 f']
          unfold pairOfCM
          rw [hg]
          rfl
        rw [hn]
        rfl
      · rw [if_neg hff, pairOfCM_setCMField_ne _ _ _ _ _ (fun hc => hff hc.symm), hpair1]
    | some h0 =>
      simp only
      by_cases hff : f' = f
      · subst hff
        rw [if_pos rfl]
        have hpst : pairOfCM st f' = some (h0, (st.confidence_scores f').getD 0) := by
          rw [← hpair1 f']
          unfold pairOfCM
          rw [hg, hconf1]
          rfl
        rw [hpst]
        unfold fmStep
        simp only
        rw [hconf1]
        by_cases hgt : bs > (st.confidence_scores f').getD 0
        · rw [if_pos hgt, if_pos hgt, pairOfCM_setCMField_eq]
        · rw [if_neg hgt, if_neg hgt, hpair1]
          exact hpst
      · rw [if_neg hff, hconf1]
        by_cases hgt : bs > (st.confidence_scores f').getD 0
        · rw [if_pos hgt, pairOfCM_setCMField_ne _ _ _ _ _ (fun hc => hff hc.symm), hpair1]
        · rw [if_neg hgt, hpair1]

theorem candidatesFor_cons (f : CanonicalField) (h : Str) (hs : List Str) :
    candidatesFor f (h :: hs) =
      (match bestOf h with
       | (some f', s) => if f' = f then (h, s) :: candidatesFor f hs else candidatesFor f hs
       | (none, _) => candidatesFor f hs) := by
  unfold candidatesFor
  rw [List.filterMap_cons]
  generalize bestOf h = r
  obtain ⟨b1, b2⟩ := r
  cases b1 with
  | none => rfl
  | some f' =>
    simp only
    by_cases hff : f' = f
    · rw [if_pos hff, if_pos hff]
    · rw [if_neg hff, if_neg hff]

theorem detect_foldl_pair (headers : List Str) : ∀ (st : ColMap) (f : CanonicalField),
    pairOfCM (headers.foldl detectStep st) f =
      (candidatesFor f headers).foldl fmStep (pairOfCM st f) := by
  induction headers with
  | nil => intro st f; rfl
  | cons h hs ih =>
    intro st f
    rw [List.foldl_cons, ih, candidatesFor_cons, pairOfCM_detectStep]
    generalize bestOf h = r
    obtain ⟨b1, b2⟩ := r
    cases b1 with
    | none => rfl
    | some f' =>
      simp only
      by_cases hff : f' = f
      · rw [if_pos hff, if_pos hff, List.foldl_cons]
      · rw [if_neg hff, if_neg hff]

theorem getCMField_empty (f : CanonicalField) : getCMField {} f = none := by
  cases f <;> rfl

theorem detectStep_preserves_bestOf (st : ColMap) (hd : Str)
    (hinv : ∀ f0 h0, getCMField st f0 = some h0 → (bestOf h0).1 = some f0) :
    ∀ f0 h0, getCMField (detectStep st hd) f0 = some h0 → (bestOf h0).1 = some f0 := by
  intro f0 h0 hg0
  simp only [detectStep] at hg0
  generalize hfb : findBestMatch (normalize_header hd) hd = r at hg0
  obtain ⟨bm, bs, am⟩ := r
  have hbest : bestOf hd = (bm, bs) := by
    unfold bestOf
    rw [hfb]
  cases bm with
  | none => exact hinv f0 h0 hg0
  | some f' =>
    simp only at hg0
    set st1 :=
      (if (dedupF (List.map Prod.fst am)).length > 1
        then { st with ambiguous_mappings := st.ambiguous_mappings ++
          [(hd, dedupF (List.map Prod.fst am))] }
        else st) with hst1
    have hget1 : ∀ g, getCMField st1 g = getCMField st g := by
      intro g
      rw [hst1]
      by_cases hc : (dedupF (List.map Prod.fst am)).length > 1
      · rw [if_pos hc, getCMField_ambig]
      · rw [if_neg hc]
    have hbase : getCMField st1 f0 = some h0 → (bestOf h0).1 = some f0 := by
      intro hh
      rw [hget1] at hh
      exact hinv f0 h0 hh
    cases hg : getCMField st1 f' with
    | none =>
      rw [hg] at hg0
      simp only at hg0
      by_cases hff : f0 = f'
      · subst hff
        rw [getCMField_setCMField_eq] at hg0
        injection hg0 with hh
        rw [← hh, hbest]
      · rw [getCMField_setCMField_ne _ _ _ _ _ hff] at hg0
        exact hbase hg0
    | some hprev =>
      rw [hg] at hg0
      simp only at hg0
      by_cases hgt : bs > (st1.confidence_scores f').getD 0
      · rw [if_pos hgt] at hg0
        by_cases hff : f0 = f'
        · subst hff
          rw [getCMField_setCMField_eq] at hg0
          injection hg0 with hh
          rw [← hh, hbest]
        · rw [getCMField_setCMField_ne _ _ _ _ _ hff] at hg0
          exact hbase hg0
      · rw [if_neg hgt] at hg0
        exact hbase hg0

theorem detect_assign_bestOf (headers : List Str) :
    ∀ (st : ColMap),
      (∀ f0 h0, getCMField st f0 = some h0 → (bestOf h0).1 = some f0) →
      ∀ f h, getCMField (headers.foldl detectStep st) f = some h →
        (bestOf h).1 = some f := by
  induction headers with
  | nil => intro st hinv f h hg; exact hinv f h hg
  | cons hd hs ih =>
    intro st hinv f h hg
    rw [List.foldl_cons] at hg
    exact ih (detectStep st hd) (detectStep_preserves_bestOf st hd hinv) f h hg

/-- C6: in every mapping `detect_columns` produces, a raw header occupies
at most one canonical field, and each field holds exactly the
first-maximum of its candidate stream: a later header replaces an earlier
assignment only when its score strictly exceeds the recorded one (on ties
the first-seen header keeps the slot). -/
theorem detect_columns_assignment (headers : List Str) :
    (∀ f1 f2 h, getCMField (detect_columns headers) f1 = some h →
        getCMField (detect_columns headers) f2 = some h → f1 = f2) ∧
    (∀ f, pairOfCM (detect_columns headers) f = firstMaxCand (candidatesFor f headers)) := by
  constructor
  · intro f1 f2 h h1 h2
    have e1 := detect_assign_bestOf headers {}
      (fun f0 h0 hg => by rw [getCMField_empty] at hg; cases hg) f1 h h1
    have e2 := detect_assign_bestOf headers {}
      (fun f0 h0 hg => by rw [getCMField_empty] at hg; cases hg) f2 h h2
    rw [e1] at e2
    injection e2
  · intro f
    unfold detect_columns firstMaxCand
    rw [detect_foldl_pair headers {} f]
    have : pairOfCM {} f = none := by
      unfold pairOfCM
      rw [getCMField_empty]
      rfl
    rw [this]

/-- Witness for C6 at a concrete header list (two exact-match headers). -/
theorem detect_columns_assignment_witness :
    pairOfCM (detect_columns [['a', 'm', 'o', 'u', 'n', 't'], ['b', 'a', 'n', 'k']])
        CanonicalField.amount
      = firstMaxCand (candidatesFor CanonicalField.amount
          [['a', 'm', 'o', 'u', 'n', 't'], ['b', 'a', 'n', 'k']]) ∧
    firstMaxCand (candidatesFor CanonicalField.amount
        [['a', 'm', 'o', 'u', 'n', 't'], ['b', 'a', 'n', 'k']])
      = some (['a', 'm', 'o', 'u', 'n', 't'], 1) :=
  ⟨(detect_columns_assignment [['a', 'm', 'o', 'u', 'n', 't'], ['b', 'a', 'n', 'k']]).2
      CanonicalField.amount,
    by decide⟩

/-! ## C1: grouping uniqueness -/

theorem dedupGo_subset {α : Type} [DecidableEq α] {a : α} :
    ∀ (seen l : List α), a ∈ dedupGo seen l → a ∈ l := by
  intro seen l
  induction l generalizing seen with
  | nil => intro h; simp [dedupGo] at h
  | cons x xs ih =>
    intro h
    unfold dedupGo at h
    by_cases hx : x ∈ seen
    · rw [if_pos hx] at h
      exact List.mem_cons_of_mem _ (ih _ h)
    · rw [if_neg hx] at h
      rcases List.mem_cons.mp h with h0 | h0
      · rw [h0]; exact List.mem_cons_self _ _
      · exact List.mem_cons_of_mem _ (ih _ h0)

theorem dedupF_subset {α : Type} [DecidableEq α] {a : α} {l : List α}
    (h : a ∈ dedupF l) : a ∈ l := dedupGo_subset [] l h

theorem dedupGo_mem {α : Type} [DecidableEq α] {a : α} :
    ∀ (seen l : List α), a ∈ l → a ∉ seen → a ∈ dedupGo seen l := by
  intro seen l
  induction l generalizing seen with
  | nil => intro h; simp at h
  | cons x xs ih =>
    intro h hs
    unfold dedupGo
    by_cases hx : x ∈ seen
    · rw [if_pos hx]
      rcases List.mem_cons.mp h with h0 | h0
      · exact absurd (h0 ▸ hx) hs
      · exact ih _ h0 hs
    · rw [if_neg hx]
      rcases List.mem_cons.mp h with h0 | h0
      · rw [h0]; exact List.mem_cons_self _ _
      · by_cases hax : a = x
        · rw [hax]; exact List.mem_cons_self _ _
        · exact List.mem_cons_of_mem _
            (ih _ h0 (by simp [hax, hs]))

theorem dedupF_mem {α : Type} [DecidableEq α] {a : α} {l : List α}
    (h : a ∈ l) : a ∈ dedupF l := dedupGo_mem [] l h (by simp)

/-- The account filter predicate used by `aggregate_by_account`. -/
theorem keptVals_eq (rows : List (List Cell)) (ai : ℕ) :
    (rows.filter (fun r =>
        match getCell r ai with
        | some v => stripNEVal v
        | none => false)).filterMap (fun r => getCell r ai)
      = rows.filterMap (fun r =>
          match getCell r ai with
          | some v => if stripNEVal v then some v else none
          | none => none) := by
  induction rows with
  | nil => rfl
  | cons r rs ih =>
    rw [List.filter_cons, List.filterMap_cons]
    cases hc : getCell r ai with
    | none =>
      simp only [hc]
      rw [if_neg (by simp)]
      exact ih
    | some v =>
      simp only [hc]
      by_cases hv : stripNEVal v
      · rw [if_pos (by simpa using hv), List.filterMap_cons, hc, if_pos hv]
        rw [ih]
      · rw [if_neg (by simpa using hv), if_neg hv]
        exact ih

theorem mem_keptVals {df : DFrame} {ai : ℕ} {v : Val} (h : v ∈ keptVals df ai) :
    stripNEVal v = true ∧ ∃ r ∈ df.rows, getCell r ai = some v := by
  unfold keptVals at h
  rw [List.mem_filterMap] at h
  obtain ⟨r, hr, hf⟩ := h
  cases hc : getCell r ai with
  | none => rw [hc] at hf; cases hf
  | some w =>
    rw [hc] at hf
    simp only at hf
    by_cases hw : stripNEVal w
    · rw [if_pos hw] at hf
      injection hf with hvw
      exact ⟨hvw ▸ hw, r, hr, hvw ▸ hc⟩
    · rw [if_neg hw] at hf
      cases hf

/-- C1: one `AggregatedAccount` per distinct kept (non-null, nonempty
after stripping) account value; null/empty rows are excluded from every
group and never form one (each group's transaction count counts exactly
the rows carrying its value, all of which passed the filter). -/
theorem aggregate_grouping_uniqueness (df : DFrame) (m : ColMap) (acol : Str) (ai : ℕ)
    (hm : m.bank_account_number = some acol) (hc : colIdx df acol = some ai) :
    (aggregate_by_account df m).length = (dedupF (keptVals df ai)).length ∧
    (∀ a ∈ aggregate_by_account df m, ∃ v ∈ dedupF (keptVals df ai),
      a.account_number = pyStrOfVal v ∧
      a.total_transactions =
        (df.rows.filter (fun r => decide (getCell r ai = some v))).length) ∧
    (∀ v ∈ dedupF (keptVals df ai), ∃ a ∈ aggregate_by_account df m,
      a.account_number = pyStrOfVal v) := by
  unfold aggregate_by_account
  rw [hm]
  dsimp only
  rw [hc]
  dsimp only
  by_cases hre : df.rows.isEmpty
  · rw [if_pos hre]
    have hnil : df.rows = [] := List.isEmpty_iff.mp hre
    have hkv : keptVals df ai = [] := by unfold keptVals; rw [hnil]; rfl
    rw [hkv]
    refine ⟨rfl, ?_, ?_⟩
    · intro a ha
      cases ha
    · intro v hv
      cases hv
  · rw [if_neg hre]
    set kept := df.rows.filter (fun r =>
      match getCell r ai with
      | some v => stripNEVal v
      | none => false) with hkept
    have hkveq : kept.filterMap (fun r => getCell r ai) = keptVals df ai := by
      rw [hkept]
      exact keptVals_eq df.rows ai
    by_cases hke : kept.isEmpty
    · rw [if_pos hke]
      have hkv : keptVals df ai = [] := by
        rw [← hkveq, List.isEmpty_iff.mp hke]
        rfl
      rw [hkv]
      refine ⟨rfl, ?_, ?_⟩
      · intro a ha
        cases ha
      · intro v hv
        cases hv
    · rw [if_neg hke]
      rw [hkveq]
      refine ⟨by rw [List.length_map], ?_, ?_⟩
      · intro a ha
        rw [List.mem_map] at ha
        obtain ⟨v, hv, hav⟩ := ha
        refine ⟨v, hv, by rw [← hav], ?_⟩
        rw [← hav]
        simp only
        have hvstrip : stripNEVal v = true :=
          (mem_keptVals (dedupF_subset hv)).1
        rw [hkept, List.filter_filter]
        congr 1
        apply List.filter_congr
        intro r _
        by_cases hrv : getCell r ai = some v
        · rw [hrv]
          simp [hvstrip]
        · simp [hrv]
      · intro v hv
        exact ⟨_, List.mem_map_of_mem _ hv, rfl⟩

/-! ## Shared aggregate membership helper (used by C7 and C8) -/

theorem aggregate_mem_key (df : DFrame) (m : ColMap) (acol : Str) (ai : ℕ)
    (hm : m.bank_account_number = some acol) (hc : colIdx df acol = some ai)
    {a : AggregatedAccount} (ha : a ∈ aggregate_by_account df m) :
    ∃ v ∈ dedupF (keptVals df ai), a.account_number = pyStrOfVal v ∧
      a.acknowledgement_numbers =
        (match m.acknowledgement_number with
         | some c =>
           (match colIdx df c with
            | some ci => concatUnique (((df.rows.filter (fun r =>
                match getCell r ai with
                | some w => stripNEVal w
                | none => false)).filter
                  (fun r => decide (getCell r ai = some v))).map (fun r => getCell r ci))
            | none => [])
         | none => []) := by
  unfold aggregate_by_account at ha
  rw [hm] at ha
  dsimp only at ha
  rw [hc] at ha
  dsimp only at ha
  by_cases hre : df.rows.isEmpty
  · rw [if_pos hre] at ha
    cases ha
  · rw [if_neg hre] at ha
    set kept := df.rows.filter (fun r =>
      match getCell r ai with
      | some v => stripNEVal v
      | none => false) with hkept
    have hkveq : kept.filterMap (fun r => getCell r ai) = keptVals df ai := by
      rw [hkept]
      exact keptVals_eq df.rows ai
    by_cases hke : kept.isEmpty
    · rw [if_pos hke] at ha
      cases ha
    · rw [if_neg hke] at ha
      rw [hkveq] at ha
      rw [List.mem_map] at ha
      obtain ⟨v, hv, hav⟩ := ha
      refine ⟨v, hv, by rw [← hav], ?_⟩
      rw [← hav]

/-! ## C7: acknowledgement consolidation -/

/-- `_concat_unique` computes exactly the amended description. -/
theorem concatUnique_eq_amended (cells : List Cell) :
    concatUnique cells = ackGroupAmended cells := rfl

theorem filter_kept_eq (df : DFrame) (ai : ℕ) (v : Val) (hv : stripNEVal v = true) :
    (df.rows.filter (fun r =>
        match getCell r ai with
        | some w => stripNEVal w
        | none => false)).filter (fun r => decide (getCell r ai = some v))
      = df.rows.filter (fun r => decide (getCell r ai = some v)) := by
  rw [List.filter_filter]
  apply List.filter_congr
  intro r _
  by_cases hrv : getCell r ai = some v
  · rw [hrv]
    simp [hv]
  · simp [hrv]

/-- C7 (amended): in every aggregate output, the consolidated
acknowledgement string of a group consists of the group's acknowledgement
values stringified VERBATIM (not stripped), values that are null or empty
after stripping discarded, duplicates removed preserving first-occurrence
order, joined with `;`; it is empty when acknowledgement_number is
unmapped. -/
theorem aggregate_ack_consolidation (df : DFrame) (m : ColMap) (acol : Str) (ai : ℕ)
    (hm : m.bank_account_number = some acol) (hc : colIdx df acol = some ai) :
    (m.acknowledgement_number = none → ∀ a ∈ aggregate_by_account df m,
      a.acknowledgement_numbers = []) ∧
    (∀ ackcol ci, m.acknowledgement_number = some ackcol → colIdx df ackcol = some ci →
      ∀ a ∈ aggregate_by_account df m, ∃ v ∈ dedupF (keptVals df ai),
        a.account_number = pyStrOfVal v ∧
        a.acknowledgement_numbers = ackGroupAmended
          ((df.rows.filter (fun r => decide (getCell r ai = some v))).map
            (fun r => getCell r ci))) := by
  constructor
  · intro hnone a ha
    obtain ⟨v, _, _, hack⟩ := aggregate_mem_key df m acol ai hm hc ha
    rw [hack, hnone]
  · intro ackcol ci hma hci a ha
    obtain ⟨v, hv, hacct, hack⟩ := aggregate_mem_key df m acol ai hm hc ha
    refine ⟨v, hv, hacct, ?_⟩
    rw [hack, hma]
    dsimp only
    rw [hci]
    dsimp only
    rw [filter_kept_eq df ai v (mem_keptVals (dedupF_subset hv)).1]
    rfl

/-! ## C8: account-number character classes -/

theorem getCell_set_std (r : List Cell) (ai : ℕ) :
    getCell (r.set ai (stdAcctCell (getCell r ai))) ai = stdAcctCell (getCell r ai) := by
  induction r generalizing ai with
  | nil =>
    show getCell [] ai = stdAcctCell (getCell [] ai)
    have h0 : getCell ([] : List Cell) ai = none := by
      unfold getCell
      cases ai <;> rfl
    rw [h0]
    rfl
  | cons c cs ih =>
    cases ai with
    | zero => rfl
    | succ n =>
      show getCell (c :: cs.set n (stdAcctCell (getCell (c :: cs) (n + 1)))) (n + 1)
        = stdAcctCell (getCell (c :: cs) (n + 1))
      have hg : getCell (c :: cs) (n + 1) = getCell cs n := rfl
      rw [hg]
      exact ih n

theorem stdAcctCell_some {c : Cell} {v : Val} (h : stdAcctCell c = some v) :
    ∃ s : Str, v = Val.vstr (s.filter (fun ch => !isSpaceDash ch)) := by
  unfold stdAcctCell at h
  by_cases hcond : ((match c with
      | none => ['n', 'a', 'n']
      | some w => pyStrOfVal w).filter (fun ch => !isSpaceDash ch)) = ['n', 'a', 'n'] ∨
    ((match c with
      | none => ['n', 'a', 'n']
      | some w => pyStrOfVal w).filter (fun ch => !isSpaceDash ch)) = ['N', 'o', 'n', 'e'] ∨
    ((match c with
      | none => ['n', 'a', 'n']
      | some w => pyStrOfVal w).filter (fun ch => !isSpaceDash ch)) = []
  · rw [if_pos hcond] at h
    cases h
  · rw [if_neg hcond] at h
    injection h with hv
    exact ⟨_, hv.symm⟩

theorem colIdx_cleanAccountCol (df : DFrame) (ai : ℕ) (name : Str) :
    colIdx (cleanAccountCol df ai) name = colIdx df name := rfl

/-- C8 (amended): after the account-number standardization step, every
aggregated account number is free of whitespace and dash characters (the
classes the cleaning removes). Digits-only does NOT hold: letters and
other punctuation survive — see the counterexample. -/
theorem aggregate_account_chars (df : DFrame) (m : ColMap) (acol : Str) (ai : ℕ)
    (hm : m.bank_account_number = some acol)
    (hc : colIdx df acol = some ai) :
    ∀ a ∈ aggregate_by_account (cleanAccountCol df ai) m,
      ∀ ch ∈ a.account_number, isSpaceDash ch = false := by
  intro a ha ch hch
  obtain ⟨v, hv, hacct, _⟩ := aggregate_mem_key (cleanAccountCol df ai) m acol ai hm
    (by rw [colIdx_cleanAccountCol]; exact hc) ha
  obtain ⟨_, r, hr, hcell⟩ := mem_keptVals (dedupF_subset hv)
  obtain ⟨r0, _, hr0⟩ := List.mem_map.mp hr
  rw [← hr0] at hcell
  rw [getCell_set_std] at hcell
  obtain ⟨s, hs⟩ := stdAcctCell_some hcell
  rw [hacct, hs] at hch
  have hmem := List.mem_filter.mp hch
  simpa using hmem.2

/-! ## Witnesses and counterexamples for C1, C7, C8 -/

/-- Witness for C1: three kept account values (`1`, ` `-only and null rows
dropped), two distinct, hence two aggregated accounts. -/
theorem aggregate_grouping_uniqueness_witness :
    (aggregate_by_account dfC1 mC1).length = (dedupF (keptVals dfC1 0)).length ∧
    (dedupF (keptVals dfC1 0)).length = 2 :=
  ⟨(aggregate_grouping_uniqueness dfC1 mC1 ['a', 'c', 'c', 't'] 0 rfl (by decide)).1,
    by decide⟩

/-- C7 counterexample: the code joins the acknowledgement value `" A "`
verbatim, while the claim's "each stringified and stripped" description
yields `"A"`; the two differ. -/
theorem aggregate_ack_not_stripped_counterexample :
    (aggregate_by_account dfC7 mC7).map (fun a => a.acknowledgement_numbers)
        = [[' ', 'A', ' ']] ∧
    ackGroupClaim [some (Val.vstr [' ', 'A', ' '])] = ['A'] ∧
    ([' ', 'A', ' '] : Str) ≠ ['A'] := by
  refine ⟨by decide, by decide, by decide⟩

/-- Witness for C7 (amended) at `dfC7`. -/
theorem aggregate_ack_consolidation_witness :
    (mC7.acknowledgement_number = none → ∀ a ∈ aggregate_by_account dfC7 mC7,
      a.acknowledgement_numbers = []) ∧
    (∀ ackcol ci, mC7.acknowledgement_number = some ackcol →
      colIdx dfC7 ackcol = some ci →
      ∀ a ∈ aggregate_by_account dfC7 mC7, ∃ v ∈ dedupF (keptVals dfC7 0),
        a.account_number = pyStrOfVal v ∧
        a.acknowledgement_numbers = ackGroupAmended
          ((dfC7.rows.filter (fun r => decide (getCell r 0 = some v))).map
            (fun r => getCell r ci))) :=
  aggregate_ack_consolidation dfC7 mC7 ['a'] 0 rfl (by decide)

/-- C8 counterexample: account value `AB-12` standardizes to `AB12`,
which is not digits-only, so "digits-only after normalization" is false
of the code. -/
theorem aggregate_account_not_digits_counterexample :
    (aggregate_by_account (cleanAccountCol dfC8 0) mC8).map (fun a => a.account_number)
        = [['A', 'B', '1', '2']] ∧
    (['A', 'B', '1', '2'] : Str).all Char.isDigit = false := by
  refine ⟨by decide, by decide⟩

/-- Witness for C8 (amended) at `dfC8`. -/
theorem aggregate_account_chars_witness :
    (∀ a ∈ aggregate_by_account (cleanAccountCol dfC8 0) mC8,
      ∀ ch ∈ a.account_number, isSpaceDash ch = false) ∧
    (aggregate_by_account (cleanAccountCol dfC8 0) mC8).map (fun a => a.account_number)
        = [['A', 'B', '1', '2']] :=
  ⟨aggregate_account_chars dfC8 mC8 ['a'] 0 rfl (by decide), by decide⟩

/-! ## C10: scalar versus vectorized amount parsing -/

theorem uAux_no_underscore {l : Str} (h : '_' ∉ l) :
    ∀ prev : Option Char, uAux prev l = true := by
  induction l with
  | nil => intro prev; rfl
  | cons c r ih =>
    intro prev
    have hc : ¬(c = '_') := fun hc => h (by rw [hc]; exact List.mem_cons_self _ _)
    unfold uAux
    rw [if_neg hc]
    exact ih (fun hm => h (List.mem_cons_of_mem _ hm)) _

theorem pyFloat_eq_pdNum {s : Str} (h : '_' ∉ s) : pyFloat s = pdNum s := by
  unfold pyFloat pdNum underscoresOK
  rw [if_pos (uAux_no_underscore h none), if_neg h]
  congr 1
  rw [List.filter_eq_self]
  intro c hc
  simp only [decide_eq_true_eq]
  intro hcu
  exact h (hcu ▸ hc)

theorem cleanAmountStr_nil : cleanAmountStr [] = [] := by decide

/-- C10 counterexample: Python `float` accepts PEP 515 underscores while
pandas' numeric parser coerces them to NaN, so the scalar and vectorized
parsers disagree on the input `1_0` (10.0 versus 0.0). -/
theorem parse_amount_vectorized_divergence :
    parse_amount (some ['1', '_', '0']) = 10 ∧
    parseAmountsVectorizedElem (some ['1', '_', '0']) = 0 ∧
    (10 : ℚ) ≠ 0 := by
  refine ⟨by decide, by decide, by norm_num⟩

/-- C10 (amended): the scalar and vectorized amount parsers agree on every
input whose cleaned string contains no underscore and no letters (the
letter exclusion keeps the textual NaN/infinity spellings, on which
`float` and `to_numeric` genuinely differ, out of scope). -/
theorem parse_amount_agree (x : Option Str)
    (hok : match x with
           | none => True
           | some s => s = ['n', 'a', 'n'] ∨ s = ['N', 'o', 'n', 'e'] ∨ s = [] ∨
               plainNumChars (cleanAmountStr (pyStrip s))) :
    parse_amount x = parseAmountsVectorizedElem x := by
  cases x with
  | none => decide
  | some s =>
    rcases hok with h1 | h2 | h3 | hp
    · rw [h1]; decide
    · rw [h2]; decide
    · rw [h3]; decide
    · by_cases hs : s = ['n', 'a', 'n'] ∨ s = ['N', 'o', 'n', 'e'] ∨ s = []
      · rcases hs with rfl | rfl | rfl <;> decide
      · have hL : parse_amount (some s)
            = (if s = ['n', 'a', 'n'] ∨ s = ['N', 'o', 'n', 'e'] ∨ s = [] then (0 : ℚ)
               else if pyStrip s = [] then 0
               else amountFromParser pyFloat (pyStrip s)) := rfl
        have hR : parseAmountsVectorizedElem (some s)
            = amountFromParser pdNum (pyStrip s) := rfl
        rw [hL, hR, if_neg hs]
        by_cases hstrip : pyStrip s = []
        · rw [if_pos hstrip, hstrip]
          decide
        · rw [if_neg hstrip]
          have hu : '_' ∉ cleanAmountStr (pyStrip s) := by
            intro hm
            exact hp '_' hm (Or.inl rfl)
          unfold amountFromParser
          rw [pyFloat_eq_pdNum hu]

/-- Witness for C10 (amended) at a currency-formatted concrete input. -/
theorem parse_amount_agree_witness :
    parse_amount (some ['₹', '1', ',', '2', '3', '4', '.', '5', '6'])
      = parseAmountsVectorizedElem (some ['₹', '1', ',', '2', '3', '4', '.', '5', '6']) :=
  parse_amount_agree (some ['₹', '1', ',', '2', '3', '4', '.', '5', '6'])
    (Or.inr (Or.inr (Or.inr (by unfold plainNumChars; decide))))

/-! ## C4: amount round-trip. First, `removeAll` rewriting lemmas. -/

theorem removeAllGo_nil (pat : Str) (fuel : ℕ) : removeAllGo pat fuel [] = [] := by
  cases fuel <;> rfl

theorem removeAllGo_fuelInv (pat : Str) :
    ∀ (fuel1 : ℕ) (s : Str) (fuel2 : ℕ), s.length ≤ fuel1 → s.length ≤ fuel2 →
      removeAllGo pat fuel1 s = removeAllGo pat fuel2 s := by
  intro fuel1
  induction fuel1 with
  | zero =>
    intro s fuel2 h1 _
    have hs : s = [] := List.eq_nil_of_length_eq_zero (Nat.le_zero.mp h1)
    rw [hs, removeAllGo_nil, removeAllGo_nil]
  | succ f1 ih =>
    intro s fuel2 h1 h2
    cases s with
    | nil => rw [removeAllGo_nil, removeAllGo_nil]
    | cons ch rest =>
      cases fuel2 with
      | zero => simp at h2
      | succ f2 =>
        show (if pat.isPrefixOf (ch :: rest) ∧ pat ≠ [] then
            removeAllGo pat f1 ((ch :: rest).drop pat.length)
          else ch :: removeAllGo pat f1 rest) =
          (if pat.isPrefixOf (ch :: rest) ∧ pat ≠ [] then
            removeAllGo pat f2 ((ch :: rest).drop pat.length)
          else ch :: removeAllGo pat f2 rest)
        by_cases hcond : pat.isPrefixOf (ch :: rest) ∧ pat ≠ []
        · rw [if_pos hcond, if_pos hcond]
          have hplen : 1 ≤ pat.length := List.length_pos.mpr hcond.2
          have hdlen : ((ch :: rest).drop pat.length).length ≤ rest.length := by
            rw [List.length_drop, List.length_cons]
            omega
          exact ih _ _ (by simp at h1; omega) (by simp at h2; omega)
        · rw [if_neg hcond, if_neg hcond]
          exact congrArg _ (ih _ _ (by simp at h1; omega) (by simp at h2; omega))

theorem removeAllGo_not_occurs {a : Char} {pat : Str} (ha : a ∈ pat) :
    ∀ (fuel : ℕ) (s : Str), a ∉ s → removeAllGo pat fuel s = s := by
  intro fuel
  induction fuel with
  | zero =>
    intro s _
    cases s <;> rfl
  | succ f ih =>
    intro s hs
    cases s with
    | nil => rfl
    | cons ch rest =>
      show (if pat.isPrefixOf (ch :: rest) ∧ pat ≠ [] then
          removeAllGo pat f ((ch :: rest).drop pat.length)
        else ch :: removeAllGo pat f rest) = ch :: rest
      rw [if_neg]
      · rw [ih rest (fun hm => hs (List.mem_cons_of_mem _ hm))]
      · rintro ⟨hpre, _⟩
        exact hs ((List.isPrefixOf_iff_prefix.mp hpre).subset ha)

theorem removeAll_not_occurs {a : Char} {pat s : Str} (ha : a ∈ pat) (hs : a ∉ s) :
    removeAll pat s = s := by
  unfold removeAll
  rw [if_neg (List.ne_nil_of_mem ha)]
  exact removeAllGo_not_occurs ha _ s hs

theorem removeAll_at_head {pat : Str} (s : Str) (hp : pat ≠ []) :
    removeAll pat (pat ++ s) = removeAll pat s := by
  unfold removeAll
  rw [if_neg hp, if_neg hp]
  cases pat with
  | nil => exact absurd rfl hp
  | cons p0 pt =>
    have hlen : ((p0 :: pt) ++ s).length = (pt.length + s.length) + 1 := by
      simp only [List.length_append, List.length_cons]
      omega
    rw [hlen]
    show (if (p0 :: pt).isPrefixOf ((p0 :: pt) ++ s) ∧ p0 :: pt ≠ [] then
        removeAllGo (p0 :: pt) (pt.length + s.length)
          (((p0 :: pt) ++ s).drop (p0 :: pt).length)
      else _) = removeAllGo (p0 :: pt) s.length s
    rw [if_pos ⟨List.isPrefixOf_iff_prefix.mpr ⟨s, rfl⟩, hp⟩]
    rw [List.drop_left]
    exact removeAllGo_fuelInv _ _ _ _ (by omega) (le_refl _)

theorem removeAll_cons_nomatch {pat : Str} {ch : Char} {s : Str} (hp : pat ≠ [])
    (hnm : pat.isPrefixOf (ch :: s) = false) :
    removeAll pat (ch :: s) = ch :: removeAll pat s := by
  unfold removeAll
  rw [if_neg hp, if_neg hp]
  show (if pat.isPrefixOf (ch :: s) ∧ pat ≠ [] then _ else ch :: removeAllGo pat s.length s)
    = ch :: removeAllGo pat s.length s
  rw [if_neg (fun hcond => by rw [hcond.1] at hnm; cases hnm)]

theorem removeAll_single (c : Char) : ∀ s : Str,
    removeAll [c] s = s.filter (fun x => x ≠ c) := by
  intro s
  induction s with
  | nil => rfl
  | cons d rest ih =>
    unfold removeAll at ih ⊢
    rw [if_neg (by simp)] at ih ⊢
    show (if [c].isPrefixOf (d :: rest) ∧ [c] ≠ [] then
        removeAllGo [c] rest.length ((d :: rest).drop 1)
      else d :: removeAllGo [c] rest.length rest) = _
    by_cases hdc : c = d
    · rw [if_pos ⟨by simp [List.isPrefixOf, hdc], by simp⟩]
      rw [List.drop_one, List.tail_cons, ih, List.filter_cons,
        if_neg (by simp [hdc])]
    · rw [if_neg (by simp [List.isPrefixOf, hdc]), ih, List.filter_cons,
        if_pos (by simp; exact fun he => hdc he.symm)]

/-! Digit-string lemmas. -/

theorem dChar_isDigit (n : ℕ) : (dChar n).isDigit = true := by
  unfold dChar
  split <;> decide

theorem dVal_dChar {n : ℕ} (h : n < 10) : dVal (dChar n) = n := by
  interval_cases n <;> decide

theorem digit_ne {a : Char} (h : a.isDigit = true) {b : Char}
    (hb : b.isDigit = false) : a ≠ b := by
  intro he
  rw [he, hb] at h
  cases h

theorem digitsValCore_append_one (l : Str) (d : Char) :
    digitsValCore (l ++ [d]) = 10 * digitsValCore l + dVal d := by
  unfold digitsValCore
  rw [List.foldl_append]
  rfl

theorem toDigitsGo_spec : ∀ (fuel n : ℕ), n ≤ fuel →
    (toDigitsGo fuel n).all Char.isDigit = true ∧ toDigitsGo fuel n ≠ [] ∧
      digitsValCore (toDigitsGo fuel n) = n := by
  intro fuel
  induction fuel with
  | zero =>
    intro n hn
    have h0 : n = 0 := Nat.le_zero.mp hn
    rw [h0]
    exact ⟨by decide, by decide, by decide⟩
  | succ f ih =>
    intro n hn
    show ((if n < 10 then [dChar n] else toDigitsGo f (n / 10) ++ [dChar (n % 10)]).all
        Char.isDigit = true) ∧
      ((if n < 10 then [dChar n] else toDigitsGo f (n / 10) ++ [dChar (n % 10)]) ≠ []) ∧
      digitsValCore
          (if n < 10 then [dChar n] else toDigitsGo f (n / 10) ++ [dChar (n % 10)]) = n
    by_cases h10 : n < 10
    · rw [if_pos h10]
      refine ⟨by simp [dChar_isDigit], by simp, ?_⟩
      show digitsValCore [dChar n] = n
      unfold digitsValCore
      show 10 * 0 + dVal (dChar n) = n
      rw [dVal_dChar h10]
      omega
    · rw [if_neg h10]
      have hdiv : n / 10 ≤ f := by
        have : n / 10 < n := Nat.div_lt_self (by omega) (by omega)
        omega
      obtain ⟨ha, hne, hval⟩ := ih (n / 10) hdiv
      refine ⟨?_, by simp, ?_⟩
      · rw [List.all_append, ha]
        simp [dChar_isDigit]
      · rw [digitsValCore_append_one, hval, dVal_dChar (Nat.mod_lt _ (by omega))]
        omega

theorem toDigits_all (m : ℕ) : (toDigits m).all Char.isDigit = true :=
  (toDigitsGo_spec m m (le_refl m)).1

theorem toDigits_ne_nil (m : ℕ) : toDigits m ≠ [] :=
  (toDigitsGo_spec m m (le_refl m)).2.1

theorem digitsValCore_toDigits (m : ℕ) : digitsValCore (toDigits m) = m :=
  (toDigitsGo_spec m m (le_refl m)).2.2

theorem twoDig_all (c : ℕ) : (twoDig c).all Char.isDigit = true := by
  unfold twoDig
  simp [dChar_isDigit]

theorem digitsValCore_twoDig {c : ℕ} (hc : c < 100) :
    digitsValCore (twoDig c) = c := by
  unfold twoDig digitsValCore
  show 10 * (10 * 0 + dVal (dChar (c / 10))) + dVal (dChar (c % 10)) = c
  rw [dVal_dChar (by omega), dVal_dChar (Nat.mod_lt _ (by omega))]
  omega

/-! Parsing a plain `digits.digits` string. -/

theorem span_digits (A B : Str) (hA : A.all Char.isDigit = true) :
    (A ++ '.' :: B).takeWhile Char.isDigit = A ∧
    (A ++ '.' :: B).dropWhile Char.isDigit = '.' :: B := by
  induction A with
  | nil =>
    constructor
    · show List.takeWhile Char.isDigit ('.' :: B) = []
      rw [List.takeWhile_cons, if_neg (by decide)]
    · show List.dropWhile Char.isDigit ('.' :: B) = '.' :: B
      rw [List.dropWhile_cons, if_neg (by decide)]
  | cons a A' ih =>
    rw [List.all_cons, Bool.and_eq_true] at hA
    obtain ⟨h1, h2⟩ := ih hA.2
    constructor
    · show List.takeWhile Char.isDigit (a :: (A' ++ '.' :: B)) = a :: A'
      rw [List.takeWhile_cons, if_pos hA.1, h1]
    · show List.dropWhile Char.isDigit (a :: (A' ++ '.' :: B)) = '.' :: B
      rw [List.dropWhile_cons, if_pos hA.1, h2]

theorem coreUnsigned_digits (m c : ℕ) (hc : c < 100) :
    coreUnsigned (toDigits m ++ '.' :: twoDig c) = some ((m : ℚ) + (c : ℚ) / 100) := by
  obtain ⟨htake, hdrop⟩ := span_digits (toDigits m) (twoDig c) (toDigits_all m)
  unfold coreUnsigned
  rw [htake, hdrop]
  dsimp only
  rw [if_pos rfl, if_neg (fun hand => toDigits_ne_nil m hand.1), if_pos (twoDig_all c)]
  rw [digitsValCore_toDigits, digitsValCore_twoDig hc]
  show some ((m : ℚ) + (c : ℚ) / 10 ^ (twoDig c).length) = _
  norm_num [twoDig]

theorem signedCore_digits (m c : ℕ) (hc : c < 100) :
    signedCore (toDigits m ++ '.' :: twoDig c) = some ((m : ℚ) + (c : ℚ) / 100) := by
  have hne := toDigits_ne_nil m
  cases hd : toDigits m with
  | nil => exact absurd hd hne
  | cons a A' =>
    have ha : a.isDigit = true := by
      have := toDigits_all m
      rw [hd, List.all_cons, Bool.and_eq_true] at this
      exact this.1
    show signedCore ((a :: A') ++ '.' :: twoDig c) = _
    rw [List.cons_append]
    unfold signedCore
    dsimp only
    rw [if_neg (digit_ne ha (by decide)), if_neg (digit_ne ha (by decide))]
    rw [← List.cons_append, ← hd]
    exact coreUnsigned_digits m c hc

theorem pyFloat_no_underscore {s : Str} (h : '_' ∉ s) : pyFloat s = signedCore s := by
  unfold pyFloat underscoresOK
  rw [if_pos (uAux_no_underscore h none)]
  congr 1
  rw [List.filter_eq_self]
  intro x hx
  simp only [decide_eq_true_eq]
  intro hxu
  exact h (hxu ▸ hx)

/-! Stripping fixed points and character-class facts. -/

theorem dropWhile_eq_self_all {p : Char → Bool} {l : Str}
    (h : ∀ x ∈ l, p x = false) : l.dropWhile p = l := by
  cases l with
  | nil => rfl
  | cons a r =>
    rw [List.dropWhile_cons, if_neg]
    rw [h a (List.mem_cons_self _ _)]
    simp

theorem pyStrip_eq_self {s : Str} (h : ∀ x ∈ s, isPySpace x = false) :
    pyStrip s = s := by
  unfold pyStrip
  rw [dropWhile_eq_self_all h,
    dropWhile_eq_self_all (fun x hx => h x (List.mem_reverse.mp hx)),
    List.reverse_reverse]

theorem not_mem_of_chars {rest : Str}
    (hrest : ∀ x ∈ rest, x.isDigit = true ∨ x = ',' ∨ x = '.') {a : Char}
    (hna : a.isDigit = false) (hc1 : a ≠ ',') (hc2 : a ≠ '.') : a ∉ rest := by
  intro hm
  rcases hrest a hm with h | h | h
  · rw [hna] at h
    cases h
  · exact hc1 h
  · exact hc2 h

theorem not_mem_append_of {a : Char} {l1 l2 : Str} (h1 : a ∉ l1) (h2 : a ∉ l2) :
    a ∉ l1 ++ l2 := by
  intro hm
  rcases List.mem_append.mp hm with h | h
  · exact h1 h
  · exact h2 h

/-- Removing every currency symbol from `marker ++ rest` yields `rest`
when `rest` consists of digits, commas and dots and starts with a digit. -/
theorem removeSymbols_marker {marker rest : Str} (hmk : marker ∈ CURRENCY_SYMBOLS)
    (hrest : ∀ x ∈ rest, x.isDigit = true ∨ x = ',' ∨ x = '.')
    (hne : rest ≠ [])
    (hhead : ∀ d, rest.head? = some d → d.isDigit = true) :
    removeSymbols (marker ++ rest) = rest := by
  have hR : 'R' ∉ rest := not_mem_of_chars hrest (by decide) (by decide) (by decide)
  have hsl : 's' ∉ rest := not_mem_of_chars hrest (by decide) (by decide) (by decide)
  have hI : 'I' ∉ rest := not_mem_of_chars hrest (by decide) (by decide) (by decide)
  have hU : 'U' ∉ rest := not_mem_of_chars hrest (by decide) (by decide) (by decide)
  have hRu : '₹' ∉ rest := not_mem_of_chars hrest (by decide) (by decide) (by decide)
  have hDo : '$' ∉ rest := not_mem_of_chars hrest (by decide) (by decide) (by decide)
  have hPo : '£' ∉ rest := not_mem_of_chars hrest (by decide) (by decide) (by decide)
  have hEu : '€' ∉ rest := not_mem_of_chars hrest (by decide) (by decide) (by decide)
  unfold removeSymbols CURRENCY_SYMBOLS
  simp only [List.foldl_cons, List.foldl_nil]
  fin_cases hmk
  · -- marker = ₹
    rw [removeAll_at_head rest (by simp),
      removeAll_not_occurs (List.mem_cons_self _ _) hRu,
      removeAll_not_occurs (List.mem_cons_self _ _) hDo,
      removeAll_not_occurs (List.mem_cons_self _ _) hPo,
      removeAll_not_occurs (List.mem_cons_self _ _) hEu,
      removeAll_not_occurs (List.mem_cons_self _ _) hR,
      removeAll_not_occurs (List.mem_cons_self _ _) hR,
      removeAll_not_occurs (List.mem_cons_self _ _) hI,
      removeAll_not_occurs (List.mem_cons_self _ _) hU]
  · -- marker = $
    rw [removeAll_not_occurs (List.mem_cons_self _ _)
        (not_mem_append_of (by decide) hRu),
      removeAll_at_head rest (by simp),
      removeAll_not_occurs (List.mem_cons_self _ _) hDo,
      removeAll_not_occurs (List.mem_cons_self _ _) hPo,
      removeAll_not_occurs (List.mem_cons_self _ _) hEu,
      removeAll_not_occurs (List.mem_cons_self _ _) hR,
      removeAll_not_occurs (List.mem_cons_self _ _) hR,
      removeAll_not_occurs (List.mem_cons_self _ _) hI,
      removeAll_not_occurs (List.mem_cons_self _ _) hU]
  · -- marker = £
    rw [removeAll_not_occurs (List.mem_cons_self _ _)
        (not_mem_append_of (by decide) hRu),
      removeAll_not_occurs (List.mem_cons_self _ _)
        (not_mem_append_of (by decide) hDo),
      removeAll_at_head rest (by simp),
      removeAll_not_occurs (List.mem_cons_self _ _) hPo,
      removeAll_not_occurs (List.mem_cons_self _ _) hEu,
      removeAll_not_occurs (List.mem_cons_self _ _) hR,
      removeAll_not_occurs (List.mem_cons_self _ _) hR,
      removeAll_not_occurs (List.mem_cons_self _ _) hI,
      removeAll_not_occurs (List.mem_cons_self _ _) hU]
  · -- marker = €
    rw [removeAll_not_occurs (List.mem_cons_self _ _)
        (not_mem_append_of (by decide) hRu),
      removeAll_not_occurs (List.mem_cons_self _ _)
        (not_mem_append_of (by decide) hDo),
      removeAll_not_occurs (List.mem_cons_self _ _)
        (not_mem_append_of (by decide) hPo),
      removeAll_at_head rest (by simp),
      removeAll_not_occurs (List.mem_cons_self _ _) hEu,
      removeAll_not_occurs (List.mem_cons_self _ _) hR,
      removeAll_not_occurs (List.mem_cons_self _ _) hR,
      removeAll_not_occurs (List.mem_cons_self _ _) hI,
      removeAll_not_occurs (List.mem_cons_self _ _) hU]
  · -- marker = Rs.
    rw [removeAll_not_occurs (List.mem_cons_self _ _)
        (not_mem_append_of (by decide) hRu),
      removeAll_not_occurs (List.mem_cons_self _ _)
        (not_mem_append_of (by decide) hDo),
      removeAll_not_occurs (List.mem_cons_self _ _)
        (not_mem_append_of (by decide) hPo),
      removeAll_not_occurs (List.mem_cons_self _ _)
        (not_mem_append_of (by decide) hEu),
      removeAll_at_head rest (by simp),
      removeAll_not_occurs (List.mem_cons_self _ _) hR,
      removeAll_not_occurs (List.mem_cons_self _ _) hR,
      removeAll_not_occurs (List.mem_cons_self _ _) hI,
      removeAll_not_occurs (List.mem_cons_self _ _) hU]
  · -- marker = Rs
    cases rest with
    | nil => exact absurd rfl hne
    | cons r0 rest' =>
      have hr0 : r0.isDigit = true := hhead r0 rfl
      rw [removeAll_not_occurs (List.mem_cons_self _ _)
          (not_mem_append_of (by decide) hRu),
        removeAll_not_occurs (List.mem_cons_self _ _)
          (not_mem_append_of (by decide) hDo),
        removeAll_not_occurs (List.mem_cons_self _ _)
          (not_mem_append_of (by decide) hPo),
        removeAll_not_occurs (List.mem_cons_self _ _)
          (not_mem_append_of (by decide) hEu)]
      have hstep1 : removeAll ['R', 's', '.'] (['R', 's'] ++ r0 :: rest')
          = 'R' :: removeAll ['R', 's', '.'] ('s' :: r0 :: rest') := by
        apply removeAll_cons_nomatch (by simp)
        show (('R' == 'R') && (('s' == 's') && (('.' == r0) &&
          List.isPrefixOf [] rest'))) = false
        have : ('.' == r0) = false := by
          rw [beq_eq_false_iff_ne]
          exact (digit_ne hr0 (by decide)).symm
        simp [this]
      have hstep2 : removeAll ['R', 's', '.'] ('s' :: r0 :: rest')
          = 's' :: removeAll ['R', 's', '.'] (r0 :: rest') := by
        apply removeAll_cons_nomatch (by simp)
        show (('R' == 's') && _) = false
        simp
      have hpre2 : removeAll ['R', 's'] ('R' :: 's' :: r0 :: rest')
          = removeAll ['R', 's'] (r0 :: rest') := by
        have h := @removeAll_at_head ['R', 's'] (r0 :: rest') (by simp)
        simp only [List.cons_append, List.nil_append] at h
        exact h
      rw [hstep1, hstep2,
        removeAll_not_occurs (List.mem_cons_self _ _) hR,
        hpre2,
        removeAll_not_occurs (List.mem_cons_self _ _) hR,
        removeAll_not_occurs (List.mem_cons_self _ _) hI,
        removeAll_not_occurs (List.mem_cons_self _ _) hU]
  · -- marker = INR
    rw [removeAll_not_occurs (List.mem_cons_self _ _)
        (not_mem_append_of (by decide) hRu),
      removeAll_not_occurs (List.mem_cons_self _ _)
        (not_mem_append_of (by decide) hDo),
      removeAll_not_occurs (List.mem_cons_self _ _)
        (not_mem_append_of (by decide) hPo),
      removeAll_not_occurs (List.mem_cons_self _ _)
        (not_mem_append_of (by decide) hEu),
      removeAll_not_occurs (List.mem_cons_of_mem _ (List.mem_cons_self _ _))
        (not_mem_append_of (by decide) hsl),
      removeAll_not_occurs (List.mem_cons_of_mem _ (List.mem_cons_self _ _))
        (not_mem_append_of (by decide) hsl),
      removeAll_at_head rest (by simp),
      removeAll_not_occurs (List.mem_cons_self _ _) hI,
      removeAll_not_occurs (List.mem_cons_self _ _) hU]
  · -- marker = USD
    rw [removeAll_not_occurs (List.mem_cons_self _ _)
        (not_mem_append_of (by decide) hRu),
      removeAll_not_occurs (List.mem_cons_self _ _)
        (not_mem_append_of (by decide) hDo),
      removeAll_not_occurs (List.mem_cons_self _ _)
        (not_mem_append_of (by decide) hPo),
      removeAll_not_occurs (List.mem_cons_self _ _)
        (not_mem_append_of (by decide) hEu),
      removeAll_not_occurs (List.mem_cons_of_mem _ (List.mem_cons_self _ _))
        (not_mem_append_of (by decide) hsl),
      removeAll_not_occurs (List.mem_cons_of_mem _ (List.mem_cons_self _ _))
        (not_mem_append_of (by decide) hsl),
      removeAll_not_occurs (List.mem_cons_self _ _)
        (not_mem_append_of (by decide) hI),
      removeAll_at_head rest (by simp),
      removeAll_not_occurs (List.mem_cons_self _ _) hU]

/-! Cleaning a formatted amount. -/

theorem digit_not_ws {a : Char} (h : a.isDigit = true) : isPySpace a = false :=
  alnum_not_ws (by rw [h]; simp)

theorem restChars_fact {gint : Str} {m : ℕ} (c : ℕ) (hg : gintOK gint m) :
    ∀ x ∈ gint ++ '.' :: twoDig c, x.isDigit = true ∨ x = ',' ∨ x = '.' := by
  intro x hx
  rcases List.mem_append.mp hx with h | h
  · rcases hg.1 x h with h1 | h1
    · exact Or.inl h1
    · exact Or.inr (Or.inl h1)
  · rcases List.mem_cons.mp h with h1 | h1
    · exact Or.inr (Or.inr h1)
    · exact Or.inl (List.all_eq_true.mp (twoDig_all c) x h1)

theorem gint_ne_nil {gint : Str} {m : ℕ} (hg : gintOK gint m) : gint ≠ [] := by
  intro h
  rw [h] at hg
  exact toDigits_ne_nil m hg.2.1.symm

theorem cleanAmountStr_format (marker gint : Str) (m c : ℕ)
    (hmk : marker ∈ CURRENCY_SYMBOLS) (hg : gintOK gint m) (hc : c < 100) :
    cleanAmountStr (formatAmount marker gint c) = toDigits m ++ '.' :: twoDig c := by
  have hrest := restChars_fact c hg
  have hgne := gint_ne_nil hg
  have hne : gint ++ '.' :: twoDig c ≠ [] := by
    cases gint <;> simp
  have hhead : ∀ d, (gint ++ '.' :: twoDig c).head? = some d → d.isDigit = true := by
    intro d hd
    cases hgint : gint with
    | nil => exact absurd hgint hgne
    | cons g0 gt =>
      rw [hgint, List.cons_append, List.head?_cons, Option.some.injEq] at hd
      rw [← hd]
      exact hg.2.2 g0 (by rw [hgint]; rfl)
  simp only [cleanAmountStr, formatAmount]
  rw [removeSymbols_marker hmk hrest hne hhead]
  rw [removeAll_single ',']
  have hfil1 : ('.' :: twoDig c).filter (fun x => x ≠ ',') = '.' :: twoDig c := by
    rw [List.filter_eq_self]
    intro x hx
    simp only [decide_eq_true_eq]
    rcases List.mem_cons.mp hx with h1 | h1
    · rw [h1]; decide
    · exact digit_ne (List.all_eq_true.mp (twoDig_all c) x h1) (by decide)
  rw [List.filter_append, hg.2.1, hfil1]
  have hstrip : pyStrip (toDigits m ++ '.' :: twoDig c) = toDigits m ++ '.' :: twoDig c := by
    apply pyStrip_eq_self
    intro x hx
    rcases List.mem_append.mp hx with h | h
    · exact digit_not_ws (List.all_eq_true.mp (toDigits_all m) x h)
    · rcases List.mem_cons.mp h with h1 | h1
      · rw [h1]; decide
      · exact digit_not_ws (List.all_eq_true.mp (twoDig_all c) x h1)
  rw [hstrip]
  rw [if_neg]
  intro hparen
  have hhd := hparen.1
  cases hdg : toDigits m with
  | nil => exact toDigits_ne_nil m hdg
  | cons a A' =>
    rw [hdg, List.cons_append, List.head?_cons, Option.some.injEq] at hhd
    have ha : a.isDigit = true := by
      have := toDigits_all m
      rw [hdg, List.all_cons, Bool.and_eq_true] at this
      exact this.1
    exact digit_ne ha (by decide) hhd

theorem markerChars_not_ws :
    ∀ marker ∈ CURRENCY_SYMBOLS, ∀ x ∈ marker, isPySpace x = false := by
  decide

theorem format_chars {marker gint : Str} {m c : ℕ}
    (hmk : marker ∈ CURRENCY_SYMBOLS) (hg : gintOK gint m) :
    ∀ x ∈ formatAmount marker gint c, isPySpace x = false := by
  intro x hx
  unfold formatAmount at hx
  rcases List.mem_append.mp hx with h | h
  · exact markerChars_not_ws marker hmk x h
  · rcases restChars_fact c hg x h with h2 | h2 | h2
    · exact digit_not_ws h2
    · rw [h2]; decide
    · rw [h2]; decide

theorem format_head {marker : Str} (gint : Str) (c : ℕ)
    (hmk : marker ∈ CURRENCY_SYMBOLS) :
    ∃ m0 mt, formatAmount marker gint c = m0 :: mt ∧
      (m0 = '₹' ∨ m0 = '$' ∨ m0 = '£' ∨ m0 = '€' ∨ m0 = 'R' ∨ m0 = 'I' ∨ m0 = 'U') := by
  fin_cases hmk <;> exact ⟨_, _, rfl, by simp⟩

/-- `parse_amount` recovers exactly `m + c/100` from a formatted amount. -/
theorem parse_amount_format (marker gint : Str) (m c : ℕ)
    (hmk : marker ∈ CURRENCY_SYMBOLS) (hg : gintOK gint m) (hc : c < 100) :
    parse_amount (some (formatAmount marker gint c)) = (m : ℚ) + (c : ℚ) / 100 := by
  obtain ⟨m0, mt, hfmt, hm0⟩ := format_head gint c hmk
  have hL : parse_amount (some (formatAmount marker gint c))
      = (if formatAmount marker gint c = ['n', 'a', 'n'] ∨
            formatAmount marker gint c = ['N', 'o', 'n', 'e'] ∨
            formatAmount marker gint c = [] then (0 : ℚ)
         else if pyStrip (formatAmount marker gint c) = [] then 0
         else amountFromParser pyFloat (pyStrip (formatAmount marker gint c))) := rfl
  rw [hL, if_neg, pyStrip_eq_self (format_chars hmk hg), if_neg (by rw [hfmt]; simp)]
  · unfold amountFromParser
    rw [cleanAmountStr_format marker gint m c hmk hg hc]
    rw [pyFloat_no_underscore, signedCore_digits m c hc]
    intro hu
    rcases List.mem_append.mp hu with h | h
    · exact digit_ne (List.all_eq_true.mp (toDigits_all m) _ h) (by decide) rfl
    · rcases List.mem_cons.mp h with h1 | h1
      · cases h1
      · exact digit_ne (List.all_eq_true.mp (twoDig_all c) _ h1) (by decide) rfl
  · rw [hfmt]
    rcases hm0 with rfl | rfl | rfl | rfl | rfl | rfl | rfl <;> simp

/-- C4: for every amount A in [0.01, 1e8], every 2-decimal rendering of it
(integer part with or without comma grouping, two cents digits), and every
supported currency marker, parse_amount applied to the formatted string is
within 0.01 of A. -/
theorem parse_amount_roundtrip (A : ℚ) (marker gint : Str) (m c : ℕ)
    (hmk : marker ∈ CURRENCY_SYMBOLS) (hg : gintOK gint m) (hc : c < 100)
    (hA1 : 1 / 100 ≤ A) (hA2 : A ≤ 10 ^ 8)
    (hrender : |((m : ℚ) + (c : ℚ) / 100) - A| ≤ 1 / 200) :
    |parse_amount (some (formatAmount marker gint c)) - A| ≤ 1 / 100 := by
  rw [parse_amount_format marker gint m c hmk hg hc]
  exact le_trans hrender (by norm_num)

/-- Witness for C4: `₹1,234.56` parses back to 1234.56 exactly. -/
theorem parse_amount_roundtrip_witness :
    |parse_amount (some (formatAmount ['₹'] ['1', ',', '2', '3', '4'] 56))
      - 123456 / 100| ≤ 1 / 100 :=
  parse_amount_roundtrip (123456 / 100) ['₹'] ['1', ',', '2', '3', '4'] 1234 56
    (by decide) ⟨by decide, by decide, by decide⟩ (by decide)
    (by norm_num) (by norm_num) (by norm_num)

end Cyber
